import Mathlib

/-!
# hujson: `Pack`, `PackWithQuotedKeys` and `UpdateOffsets`

A shallow embedding of `src/pack.go` and the properties of its serializer and
offset walker.

Modelling conventions.

* A Go `[]byte` is a `List UInt8`; `append(b, x...)` is `b ++ x`, `len` is
  `List.length` and the re-slice `b[:len(b)-1]` is `b.take (b.length - 1)`.
* `Extra` keeps Go's distinction between a nil slice and an empty non-nil one,
  because helpers that are not part of `pack.go` may observe it.
* `Value.Value` is an interface in Go: it is nil, a `Literal`, an `*Object` or an
  `*Array`.  The embedding is a tree: no two nodes share an `*Object` or `*Array`,
  and the pointers stored in the interface are non-nil.
* Go `int` is modelled by `Int` in `updateOffsets`.  From the count 0 that
  `UpdateOffsets` passes, every number the walker computes is at most the length of
  the packed text, so the 64-bit range is never left for a text that fits in
  memory.  `updateOffsets64` is the same walker with two's-complement wrap-around;
  the two agree whenever the final count is within range
  (`Value_updateOffsets64_eq`), and differ for a starting count near the largest
  `int`.
* `updateOffsets` mutates its receiver; the embedding returns the updated node
  together with the new running count.
* `hasTrailingComma`, `length` and `Literal.isUnquotedKey` are called by
  `pack.go` but defined elsewhere.  The first and the last are parameters of the
  development (`Helpers`), so every theorem holds for each implementation of them.
  Where a property depends on what `hasTrailingComma` reads, the condition is a
  named predicate (`Helpers.ignoresOffsets`, `Helpers.ignoresQuoting`) and is shown
  to hold of `tableHelpers`.
-/

namespace Hujson

/-- A byte buffer. -/
abbrev Bytes := List UInt8

/-- The byte `"`. -/
abbrev quote : UInt8 := 0x22
/-- The byte `,`. -/
abbrev comma : UInt8 := 0x2c
/-- The byte `:`. -/
abbrev colon : UInt8 := 0x3a
/-- The byte `[`. -/
abbrev lbracket : UInt8 := 0x5b
/-- The byte `]`. -/
abbrev rbracket : UInt8 := 0x5d
/-- The byte `{`. -/
abbrev lbrace : UInt8 := 0x7b
/-- The byte `}`. -/
abbrev rbrace : UInt8 := 0x7d

/-- Go `type Extra []byte`: either the nil slice or a (possibly empty) buffer. -/
inductive Extra where
  | null
  | buf (b : Bytes)
deriving DecidableEq, Repr

/-- The bytes of an `Extra`; the nil slice has none. -/
def Extra.bytes : Extra → Bytes
  | .null => []
  | .buf b => b

/-- Go `type Literal []byte`. -/
abbrev Literal := Bytes

mutual
/-- Go `Value`: a payload with the extras around it and its byte offsets. -/
inductive Value where
  | mk (BeforeExtra : Extra) (StartOffset : Int) (Value : Payload) (EndOffset : Int)
      (AfterExtra : Extra)
/-- The dynamic type of the interface field `Value.Value`. -/
inductive Payload where
  | none
  | Literal (lit : Literal)
  | Object (Members : List ObjectMember) (AfterExtra : Extra)
  | Array (Elements : List Value) (AfterExtra : Extra)
/-- Go `ObjectMember`: a name and a value. -/
inductive ObjectMember where
  | mk (Name : Value) (Value : Value)
end

namespace Value

/-- Field `BeforeExtra`. -/
def BeforeExtra : Value → Extra
  | .mk be _ _ _ _ => be

/-- Field `StartOffset`. -/
def StartOffset : Value → Int
  | .mk _ s _ _ _ => s

/-- Field `Value`. -/
def payload : Value → Payload
  | .mk _ _ p _ _ => p

/-- Field `EndOffset`. -/
def EndOffset : Value → Int
  | .mk _ _ _ e _ => e

/-- Field `AfterExtra`. -/
def AfterExtra : Value → Extra
  | .mk _ _ _ _ ae => ae

end Value

/-- Field `Name` of a member. -/
def ObjectMember.Name : ObjectMember → Value
  | .mk n _ => n

/-- Field `Value` of a member. -/
def ObjectMember.Value : ObjectMember → Value
  | .mk _ v => v

/-- Modelled from the spec: the helper `length` of a composite is not among the
sources; it is the number of members of an object and of elements of an array. -/
def Payload.length : Payload → Nat
  | .Object ms _ => ms.length
  | .Array es _ => es.length
  | _ => 0

/-- The helpers `pack.go` calls and does not define. `hasTrailingComma` is only
ever applied to an `Object` or an `Array`. -/
structure Helpers where
  hasTrailingComma : Payload → Bool
  isUnquotedKey : Literal → Bool

/-- Go `appendLiteral` (pack.go 64-73). -/
def appendLiteral (H : Helpers) (lit : Literal) (b : Bytes) (quoteKeys : Bool) : Bytes :=
  if quoteKeys && H.isUnquotedKey lit then
    ((b ++ [quote]) ++ lit) ++ [quote]
  else
    b ++ lit

mutual
/-- Go `Value.append` (pack.go 75-108): the extras around the payload. -/
def Value.append (H : Helpers) : Value → Bytes → Bool → Bytes
  | .mk be _ v2 _ ae, b, quoteKeys =>
    let b := b ++ be.bytes
    let b := Payload.append H v2 b quoteKeys
    b ++ ae.bytes
/-- The type switch of `Value.append` (pack.go 77-105). -/
def Payload.append (H : Helpers) : Payload → Bytes → Bool → Bytes
  | .none, b, _ => b
  | .Literal lit, b, quoteKeys => appendLiteral H lit b quoteKeys
  | .Object ms ae, b, quoteKeys =>
    let b := b ++ [lbrace]
    let b := appendMembers H ms b quoteKeys
    let b := if (Payload.Object ms ae).length > 0 && !H.hasTrailingComma (.Object ms ae)
      then b.take (b.length - 1) else b
    let b := b ++ ae.bytes
    b ++ [rbrace]
  | .Array es ae, b, quoteKeys =>
    let b := b ++ [lbracket]
    let b := appendElements H es b quoteKeys
    let b := if (Payload.Array es ae).length > 0 && !H.hasTrailingComma (.Array es ae)
      then b.take (b.length - 1) else b
    let b := b ++ ae.bytes
    b ++ [rbracket]
/-- The loop over `v2.Members` (pack.go 83-88). -/
def appendMembers (H : Helpers) : List ObjectMember → Bytes → Bool → Bytes
  | [], b, _ => b
  | .mk name value :: ms, b, quoteKeys =>
    let b := Value.append H name b quoteKeys
    let b := b ++ [colon]
    let b := Value.append H value b quoteKeys
    let b := b ++ [comma]
    appendMembers H ms b quoteKeys
/-- The loop over `v2.Elements` (pack.go 96-99). -/
def appendElements (H : Helpers) : List Value → Bytes → Bool → Bytes
  | [], b, _ => b
  | e :: es, b, quoteKeys =>
    let b := Value.append H e b quoteKeys
    let b := b ++ [comma]
    appendElements H es b quoteKeys
end

/-- Go `Value.Pack` (pack.go 51-53). -/
def Value.Pack (H : Helpers) (v : Value) : Bytes :=
  v.append H [] false

/-- Go `Value.PackWithQuotedKeys` (pack.go 55-57). -/
def Value.PackWithQuotedKeys (H : Helpers) (v : Value) : Bytes :=
  v.append H [] true

mutual
/-- Go `Value.updateOffsets` (pack.go 12-46): the updated node and the new count. -/
def Value.updateOffsets (H : Helpers) : Value → Int → Value × Int
  | .mk be _ v2 _ ae, n =>
    let n := n + be.bytes.length
    let start := n
    let r := Payload.updateOffsets H v2 n
    let n := r.2
    (.mk be start r.1 n ae, n + ae.bytes.length)
/-- The type switch of `Value.updateOffsets` (pack.go 15-42). The trailing-comma
helper sees the composite after its children were updated in place. -/
def Payload.updateOffsets (H : Helpers) : Payload → Int → Payload × Int
  | .none, n => (.none, n)
  | .Literal lit, n => (.Literal lit, n + lit.length)
  | .Object ms ae, n =>
    let n := n + 1
    let r := updateMembers H ms n
    let v2 := Payload.Object r.1 ae
    let n := r.2
    let n := if v2.length > 0 && !H.hasTrailingComma v2 then n - 1 else n
    let n := n + ae.bytes.length
    (v2, n + 1)
  | .Array es ae, n =>
    let n := n + 1
    let r := updateElements H es n
    let v2 := Payload.Array r.1 ae
    let n := r.2
    let n := if v2.length > 0 && !H.hasTrailingComma v2 then n - 1 else n
    let n := n + ae.bytes.length
    (v2, n + 1)
/-- The loop over `v2.Members` (pack.go 20-25). -/
def updateMembers (H : Helpers) : List ObjectMember → Int → List ObjectMember × Int
  | [], n => ([], n)
  | .mk name value :: ms, n =>
    let r1 := Value.updateOffsets H name n
    let n := r1.2 + 1
    let r2 := Value.updateOffsets H value n
    let n := r2.2 + 1
    let r := updateMembers H ms n
    (.mk r1.1 r2.1 :: r.1, r.2)
/-- The loop over `v2.Elements` (pack.go 33-36). -/
def updateElements (H : Helpers) : List Value → Int → List Value × Int
  | [], n => ([], n)
  | e :: es, n =>
    let r1 := Value.updateOffsets H e n
    let n := r1.2 + 1
    let r := updateElements H es n
    (r1.1 :: r.1, r.2)
end

/-- Go `Value.UpdateOffsets` (pack.go 9-11): the tree after the call. -/
def Value.UpdateOffsets (H : Helpers) (v : Value) : Value :=
  (v.updateOffsets H 0).1

/-! ## An implementation of the helpers and the trees of the test table

The expected trees of `json_test.go` are compared with the parser's output up to
the difference between a nil and an empty slice.  They are consistent with the
helpers below: a composite has a trailing comma when the `AfterExtra` of its last
value is non-nil, and the unquoted keys are those of the scanner. -/

/-- ASCII text as bytes. -/
def str (s : String) : Bytes :=
  s.toList.map (fun c => c.toNat.toUInt8)

/-- The last value of a composite, if it has one. -/
def Payload.lastValue : Payload → Option Value
  | .Object ms _ => ms.getLast?.map ObjectMember.Value
  | .Array es _ => es.getLast?
  | _ => Option.none

/-- Whether an `Extra` is a non-nil slice. -/
def Extra.nonNil : Extra → Bool
  | .null => false
  | .buf _ => true

/-- An ASCII letter or `_`. -/
def isKeyStart (c : UInt8) : Bool :=
  (0x41 ≤ c && c ≤ 0x5a) || (0x61 ≤ c && c ≤ 0x7a) || c == 0x5f

/-- An ASCII letter, a digit, `_`, `.`, `(` or `)`. -/
def isKeyPart (c : UInt8) : Bool :=
  isKeyStart c || (0x30 ≤ c && c ≤ 0x39) || c == 0x2e || c == 0x28 || c == 0x29

/-- Modelled from the spec: `Literal.isUnquotedKey` is not among the sources; an
unquoted key is an identifier-like run whose first byte is an ASCII letter or `_`,
continued by ASCII letters, digits, `_`, `.`, `(` and `)`. -/
def unquotedKey : Literal → Bool
  | [] => false
  | c :: cs => isKeyStart c && cs.all isKeyPart

/-- The helpers used to run the definitions on concrete trees. -/
def tableHelpers : Helpers where
  hasTrailingComma p :=
    match p.lastValue with
    | some v => v.AfterExtra.nonNil
    | none => false
  isUnquotedKey := unquotedKey

/-- A leaf with no extras. -/
def leaf (s : Int) (lit : String) (e : Int) : Value :=
  .mk .null s (.Literal (str lit)) e .null

/-- The expected tree for the input ` null ` (json_test.go 26-35). -/
def treeNull : Value :=
  .mk (.buf (str " ")) 1 (.Literal (str "null")) 5 (.buf (str " "))

/-- The expected tree for ` [ "s" ] ` (json_test.go 194-207). -/
def treeArray : Value :=
  .mk (.buf (str " ")) 1
    (.Array [.mk (.buf (str " ")) 3 (.Literal (str "\"s\"")) 6 .null] (.buf (str " ")))
    8 (.buf (str " "))

/-- The expected tree for ` [ "s" , ] ` (json_test.go 208-221). -/
def treeArrayTrailing : Value :=
  .mk (.buf (str " ")) 1
    (.Array [.mk (.buf (str " ")) 3 (.Literal (str "\"s\"")) 6 (.buf (str " "))]
      (.buf (str " ")))
    10 (.buf (str " "))

/-- The expected tree for ` {"k" : "v" } ` (json_test.go 140-156). -/
def treeObject : Value :=
  .mk (.buf (str " ")) 1
    (.Object [.mk (.mk .null 2 (.Literal (str "\"k\"")) 5 (.buf (str " ")))
                  (.mk (.buf (str " ")) 8 (.Literal (str "\"v\"")) 11 .null)]
      (.buf (str " ")))
    13 (.buf (str " "))

/-- The tree for ` { "k" : "v", } ` (json_test.go 157-173); the `AfterExtra` of the
value is the empty non-nil slice that stands for the trailing comma. -/
def treeObjectTrailing : Value :=
  .mk (.buf (str " ")) 1
    (.Object [.mk (.mk (.buf (str " ")) 3 (.Literal (str "\"k\"")) 6 (.buf (str " ")))
                  (.mk (.buf (str " ")) 9 (.Literal (str "\"v\"")) 12 (.buf []))]
      (.buf (str " ")))
    15 (.buf (str " "))

/-- The comment ` /**/ ` of the nested-comment fixture. -/
def cmt : Extra := .buf (str " /**/ ")

/-- The expected tree for the nested-comment array (json_test.go 222-243). -/
def treeComments : Value :=
  .mk cmt 6
    (.Array
      [ .mk cmt 13 (.Literal (str "null")) 17 cmt,
        .mk cmt 30 (.Literal (str "false")) 35 cmt,
        .mk cmt 48 (.Literal (str "true")) 52 cmt,
        .mk cmt 65 (.Literal (str "\"string\"")) 73 cmt,
        .mk cmt 86 (.Literal (str "0")) 87 cmt,
        .mk cmt 100 (.Object [] .null) 102 cmt,
        .mk cmt 115 (.Array [] .null) 117 .null ]
      cmt)
    124 cmt

/-- The text of the nested-comment fixture (json_test.go 222). -/
def textComments : Bytes :=
  str (" /**/ [ /**/ null /**/ , /**/ false /**/ , /**/ true /**/ , /**/ \"string\" /**/ ,"
    ++ " /**/ 0 /**/ , /**/ \x7b\x7d /**/ , /**/ [] /**/ ] /**/ ")

/-- The expected tree for `{pos: {x: 1, y: 2}}` (json_test.go 367-418). -/
def treePos : Value :=
  .mk .null 0
    (.Object
      [.mk (leaf 1 "pos" 4)
        (.mk (.buf (str " ")) 6
          (.Object
            [ .mk (leaf 7 "x" 8) (.mk (.buf (str " ")) 10 (.Literal (str "1")) 11 .null),
              .mk (.mk (.buf (str " ")) 13 (.Literal (str "y")) 14 .null)
                  (.mk (.buf (str " ")) 16 (.Literal (str "2")) 17 .null) ]
            .null)
          18 .null)]
      .null)
    19 .null

/-- The element of `treeArrayTrailing`. -/
def nodeS : Value :=
  .mk (.buf (str " ")) 3 (.Literal (str "\"s\"")) 6 (.buf (str " "))

/-- The empty object among the elements of `treeComments`. -/
def nodeEmptyObject : Value :=
  .mk cmt 100 (.Object [] .null) 102 cmt

/-- The literal `k` as a top-level value. -/
def topKey : Value := leaf 0 "k" 1

/-- The array `[k]`. -/
def arrayOfKey : Value :=
  .mk .null 0 (.Array [leaf 1 "k" 2] .null) 3 .null

/-! ## Vocabulary of the properties -/

/-- The bytes `Pack` writes for a payload alone, without the extras of its node. -/
def Payload.Pack (H : Helpers) (p : Payload) : Bytes :=
  p.append H [] false

/-- The node with `BeforeExtra` and `AfterExtra` set to empty. -/
def Value.trimExtras : Value → Value
  | .mk _ s p e _ => .mk .null s p e .null

mutual
/-- Every node of a tree: the node itself and the nodes below it, in document order. -/
def Value.nodes : Value → List Value
  | .mk be s p e ae => .mk be s p e ae :: Payload.nodes p
/-- The nodes below a payload. -/
def Payload.nodes : Payload → List Value
  | .none => []
  | .Literal _ => []
  | .Object ms _ => membersNodes ms
  | .Array es _ => elementsNodes es
/-- The nodes of the names and values of a list of members. -/
def membersNodes : List ObjectMember → List Value
  | [] => []
  | .mk name value :: ms => Value.nodes name ++ (Value.nodes value ++ membersNodes ms)
/-- The nodes of a list of elements. -/
def elementsNodes : List Value → List Value
  | [] => []
  | e :: es => Value.nodes e ++ elementsNodes es
end

/-- Go `b[i:j]` for offsets that are in range. -/
def slice (b : Bytes) (i j : Int) : Bytes :=
  (b.drop i.toNat).take (j.toNat - i.toNat)

/-- Each item followed by a comma, the final comma dropped when there is an item
and no trailing comma is wanted. -/
def commaTerminated (items : List Bytes) (trailing : Bool) : Bytes :=
  let all := (items.map (fun x => x ++ [comma])).flatten
  if items.length ≥ 1 ∧ trailing = false then all.dropLast else all

/-- The number of structural commas of a composite with `N` children. -/
def commaCount (N : Nat) (trailing : Bool) : Nat :=
  if N = 0 then 0 else if trailing then N else N - 1

/-- The packed text of one member: name, colon, value. -/
def ObjectMember.Pack (H : Helpers) (m : ObjectMember) : Bytes :=
  m.Name.Pack H ++ [colon] ++ m.Value.Pack H

/-- The node `d` sits in the text `P`, which starts at offset `n`: its offsets
delimit an occurrence of its packed payload. -/
def Located (H : Helpers) (P : Bytes) (n : Int) (d : Value) : Prop :=
  ∃ pre post : Bytes, P = pre ++ (d.payload.Pack H ++ post) ∧
    d.StartOffset = n + pre.length ∧
    d.EndOffset = d.StartOffset + (d.payload.Pack H).length

/-- The text of a non-empty list of children ends in the comma of its last child,
and every node below sits before that comma. -/
def LocatedInList (H : Helpers) (X : Bytes) (n : Int) (d : Value) : Prop :=
  ∃ Y : Bytes, X = Y ++ [comma] ∧ Located H Y n d

/-! ## The grammar of HuJSON -/

/-- Modelled from the spec: the scanner is not among the sources. Its recognizers
(extras, strings, numbers, keywords, unquoted keys) are parameters; the one fact
used about them is that a string, a number or a keyword is never empty. -/
structure Lexicon where
  isExtras : Bytes → Bool
  isString : Bytes → Bool
  isNumber : Bytes → Bool
  isKeyword : Bytes → Bool
  isUnquotedKey : Bytes → Bool
  value_ne_nil : isString [] = false ∧ isNumber [] = false ∧ isKeyword [] = false

/-- A literal in value position: `String | Number | Keyword`. -/
def Lexicon.isValueLiteral (L : Lexicon) (s : Bytes) : Bool :=
  L.isString s || L.isNumber s || L.isKeyword s

/-- A literal in name position: `Name := String | UnquotedKey`. -/
def Lexicon.isName (L : Lexicon) (s : Bytes) : Bool :=
  L.isString s || L.isUnquotedKey s

mutual
/-- Modelled from the spec: `Value := String | Number | Keyword | Object | Array`. -/
inductive GValue (L : Lexicon) : Bytes → Prop
  | literal {s : Bytes} : L.isValueLiteral s = true → GValue L s
  | object {s : Bytes} : GObject L s → GValue L s
  | array {s : Bytes} : GArray L s → GValue L s
/-- Modelled from the spec: `Object := '{' Members? Extras '}'`. -/
inductive GObject (L : Lexicon) : Bytes → Prop
  | empty {x : Bytes} : L.isExtras x = true → GObject L ([lbrace] ++ x ++ [rbrace])
  | members {ms x : Bytes} : GMembers L ms → L.isExtras x = true →
      GObject L ([lbrace] ++ ms ++ x ++ [rbrace])
/-- Modelled from the spec: `Members := Member (',' Member)* ','?`. -/
inductive GMembers (L : Lexicon) : Bytes → Prop
  | last {m : Bytes} : GMember L m → GMembers L m
  | lastComma {m : Bytes} : GMember L m → GMembers L (m ++ [comma])
  | cons {m ms : Bytes} : GMember L m → GMembers L ms → GMembers L (m ++ [comma] ++ ms)
/-- Modelled from the spec: `Member := Extras Name Extras ':' Extras Value Extras`. -/
inductive GMember (L : Lexicon) : Bytes → Prop
  | mk {a n b c v d : Bytes} : L.isExtras a = true → L.isName n = true →
      L.isExtras b = true → L.isExtras c = true → GValue L v → L.isExtras d = true →
      GMember L (a ++ n ++ b ++ [colon] ++ c ++ v ++ d)
/-- Modelled from the spec: `Array := '[' Elements? Extras ']'`. -/
inductive GArray (L : Lexicon) : Bytes → Prop
  | empty {x : Bytes} : L.isExtras x = true → GArray L ([lbracket] ++ x ++ [rbracket])
  | elements {es x : Bytes} : GElements L es → L.isExtras x = true →
      GArray L ([lbracket] ++ es ++ x ++ [rbracket])
/-- Modelled from the spec: `Elements := Value (',' Value)* ','?`, each value with
the extras that attach to it (the extras before a value and those between a value
and the following comma), as for the value of a member. -/
inductive GElements (L : Lexicon) : Bytes → Prop
  | last {a v b : Bytes} : L.isExtras a = true → GValue L v → L.isExtras b = true →
      GElements L (a ++ v ++ b)
  | lastComma {a v b : Bytes} : L.isExtras a = true → GValue L v → L.isExtras b = true →
      GElements L (a ++ v ++ b ++ [comma])
  | cons {a v b es : Bytes} : L.isExtras a = true → GValue L v → L.isExtras b = true →
      GElements L es → GElements L (a ++ v ++ b ++ [comma] ++ es)
end

/-- Modelled from the spec: `Document := Extras Value Extras EOF`. -/
inductive Document (L : Lexicon) : Bytes → Prop
  | mk {a v b : Bytes} : L.isExtras a = true → GValue L v → L.isExtras b = true →
      Document L (a ++ v ++ b)

mutual
/-- Every `Extra` of the tree is a valid extra and every `Literal` a valid literal
for its position; the node is in value position. -/
def Value.validFragments (L : Lexicon) : Value → Bool
  | .mk be _ p _ ae =>
    L.isExtras be.bytes && L.isExtras ae.bytes && Payload.validFragments L p
/-- The node is the name of a member: its literal is a string or an unquoted key. -/
def Value.validNameFragments (L : Lexicon) : Value → Bool
  | .mk be _ p _ ae =>
    L.isExtras be.bytes && L.isExtras ae.bytes && Payload.validNameFragments L p
/-- The payload of a node in value position. -/
def Payload.validFragments (L : Lexicon) : Payload → Bool
  | .none => true
  | .Literal lit => L.isValueLiteral lit
  | .Object ms ae => membersValidFragments L ms && L.isExtras ae.bytes
  | .Array es ae => elementsValidFragments L es && L.isExtras ae.bytes
/-- The payload of a node in name position. -/
def Payload.validNameFragments (L : Lexicon) : Payload → Bool
  | .none => true
  | .Literal lit => L.isName lit
  | .Object ms ae => membersValidFragments L ms && L.isExtras ae.bytes
  | .Array es ae => elementsValidFragments L es && L.isExtras ae.bytes
/-- The members of an object. -/
def membersValidFragments (L : Lexicon) : List ObjectMember → Bool
  | [] => true
  | .mk name value :: ms =>
    Value.validNameFragments L name && Value.validFragments L value
      && membersValidFragments L ms
/-- The elements of an array. -/
def elementsValidFragments (L : Lexicon) : List Value → Bool
  | [] => true
  | e :: es => Value.validFragments L e && elementsValidFragments L es
end

/-- Whether a payload is a `Literal`. -/
def Payload.isLiteral : Payload → Bool
  | .Literal _ => true
  | _ => false

mutual
/-- Every node of the tree has a payload and the name of every member is a
`Literal`. -/
def Value.complete : Value → Bool
  | .mk _ _ p _ _ => Payload.complete p
/-- Completeness below a payload. -/
def Payload.complete : Payload → Bool
  | .none => false
  | .Literal _ => true
  | .Object ms _ => membersComplete ms
  | .Array es _ => elementsComplete es
/-- Completeness of the members of an object. -/
def membersComplete : List ObjectMember → Bool
  | [] => true
  | .mk name value :: ms =>
    name.payload.isLiteral && Value.complete value && membersComplete ms
/-- Completeness of the elements of an array. -/
def elementsComplete : List Value → Bool
  | [] => true
  | e :: es => Value.complete e && elementsComplete es
end

/-- A value with the extras that attach to it: `Extras Value Extras`. -/
def GElement (L : Lexicon) (s : Bytes) : Prop :=
  ∃ a v b : Bytes, s = a ++ v ++ b ∧ L.isExtras a = true ∧ GValue L v ∧ L.isExtras b = true

/-- ASCII whitespace: space, tab, carriage return, line feed. -/
def isSpace (c : UInt8) : Bool :=
  c == 0x20 || c == 0x09 || c == 0x0d || c == 0x0a

/-- A JSON string without escapes: a quote, printable ASCII other than `"` and `\`,
and a quote. -/
def isPlainString : Bytes → Bool
  | [] => false
  | c :: cs =>
    c == quote && cs.getLast? == some quote &&
      cs.dropLast.all (fun b => 0x20 ≤ b && b < 0x7f && b != quote && b != 0x5c)

/-- A JSON number without sign, fraction or exponent: `0` or a run of digits that
does not start with `0`. -/
def isPlainNumber : Bytes → Bool
  | [] => false
  | [c] => 0x30 ≤ c && c ≤ 0x39
  | c :: cs => 0x31 ≤ c && c ≤ 0x39 && cs.all (fun b => 0x30 ≤ b && b ≤ 0x39)

/-- Where the scan of an extra stands: outside a comment, after the `/` that opens
one, inside a line comment, inside a block comment, or after a `*` inside a block
comment. -/
inductive ScanState where
  | outside
  | slash
  | line
  | block
  | blockStar
deriving DecidableEq, Repr

/-- Whitespace, `//` comments that end at the next line feed and `/* */` comments
that end at the first `*/`, the bytes inside comments being ASCII. -/
def scanExtras : ScanState → Bytes → Bool
  | .outside, [] => true
  | _, [] => false
  | .outside, c :: cs =>
    if isSpace c then scanExtras .outside cs
    else if c == 0x2f then scanExtras .slash cs
    else false
  | .slash, c :: cs =>
    if c == 0x2f then scanExtras .line cs
    else if c == 0x2a then scanExtras .block cs
    else false
  | .line, c :: cs =>
    if c == 0x0a then scanExtras .outside cs
    else if c < 0x80 then scanExtras .line cs
    else false
  | .block, c :: cs =>
    if c == 0x2a then scanExtras .blockStar cs
    else if c < 0x80 then scanExtras .block cs
    else false
  | .blockStar, c :: cs =>
    if c == 0x2f then scanExtras .outside cs
    else if c == 0x2a then scanExtras .blockStar cs
    else if c < 0x80 then scanExtras .block cs
    else false

/-- A small lexicon used to run the definitions on concrete trees: extras are
whitespace and comments of ASCII bytes, strings and numbers are the plain ones, the
keywords are `null`, `true` and `false`, and the unquoted keys are those of
`unquotedKey`. -/
def tableLexicon : Lexicon where
  isExtras := scanExtras .outside
  isString := isPlainString
  isNumber := isPlainNumber
  isKeyword s := s == str "null" || s == str "true" || s == str "false"
  isUnquotedKey := unquotedKey
  value_ne_nil := by decide

/-! ## A model of `Parse` -/

mutual
/-- Modelled from the spec: `Parse` is not among the sources. This is the part of
`Parse` for a value proper that starts at offset `n` of the input, with the payload
built for it: the grammar and the attachment of extras of §4.2, and the trailing
comma that `hasTrailingComma` reports (§4.3). Where two runs of extras are adjacent
the relation admits every split of them, the parser's own among them. -/
inductive ParsesPayload (L : Lexicon) (H : Helpers) : Int → Bytes → Payload → Prop
  | literal (n : Int) {lit : Bytes} : L.isValueLiteral lit = true →
      ParsesPayload L H n lit (.Literal lit)
  | emptyObject (n : Int) {ae : Extra} : L.isExtras ae.bytes = true →
      ParsesPayload L H n ([lbrace] ++ ae.bytes ++ [rbrace]) (.Object [] ae)
  | object (n : Int) {s : Bytes} {ms : List ObjectMember} {ae : Extra} :
      ParsesMembers L H (n + 1) s ms → L.isExtras ae.bytes = true →
      H.hasTrailingComma (.Object ms ae) = false →
      ParsesPayload L H n ([lbrace] ++ s ++ ae.bytes ++ [rbrace]) (.Object ms ae)
  | objectComma (n : Int) {s : Bytes} {ms : List ObjectMember} {ae : Extra} :
      ParsesMembers L H (n + 1) s ms → L.isExtras ae.bytes = true →
      H.hasTrailingComma (.Object ms ae) = true →
      ParsesPayload L H n ([lbrace] ++ s ++ [comma] ++ ae.bytes ++ [rbrace]) (.Object ms ae)
  | emptyArray (n : Int) {ae : Extra} : L.isExtras ae.bytes = true →
      ParsesPayload L H n ([lbracket] ++ ae.bytes ++ [rbracket]) (.Array [] ae)
  | array (n : Int) {s : Bytes} {es : List Value} {ae : Extra} :
      ParsesElements L H (n + 1) s es → L.isExtras ae.bytes = true →
      H.hasTrailingComma (.Array es ae) = false →
      ParsesPayload L H n ([lbracket] ++ s ++ ae.bytes ++ [rbracket]) (.Array es ae)
  | arrayComma (n : Int) {s : Bytes} {es : List Value} {ae : Extra} :
      ParsesElements L H (n + 1) s es → L.isExtras ae.bytes = true →
      H.hasTrailingComma (.Array es ae) = true →
      ParsesPayload L H n ([lbracket] ++ s ++ [comma] ++ ae.bytes ++ [rbracket])
        (.Array es ae)
/-- Modelled from the spec: the part of `Parse` for `Extras Value Extras` starting at
offset `n`; the extras before the value become its `BeforeExtra`, those after it its
`AfterExtra`, `StartOffset` is the index at which the value proper begins and
`EndOffset` the index one past its last byte (§3). -/
inductive ParsesValue (L : Lexicon) (H : Helpers) : Int → Bytes → Value → Prop
  | mk (n : Int) {be ae : Extra} {t : Bytes} {p : Payload} :
      L.isExtras be.bytes = true →
      ParsesPayload L H (n + be.bytes.length) t p →
      L.isExtras ae.bytes = true →
      ParsesValue L H n (be.bytes ++ t ++ ae.bytes)
        (.mk be (n + be.bytes.length) p (n + be.bytes.length + t.length) ae)
/-- Modelled from the spec: the part of `Parse` for `Member (',' Member)*` starting
at offset `n`, with `Member := Extras Name Extras ':' Extras Value Extras`; the name
is a node whose payload is the literal of the name. -/
inductive ParsesMembers (L : Lexicon) (H : Helpers) : Int → Bytes → List ObjectMember → Prop
  | last (n : Int) {be ae : Extra} {k v : Bytes} {value : Value} :
      L.isExtras be.bytes = true → L.isName k = true → L.isExtras ae.bytes = true →
      ParsesValue L H (n + be.bytes.length + k.length + ae.bytes.length + 1) v value →
      ParsesMembers L H n (be.bytes ++ k ++ ae.bytes ++ [colon] ++ v)
        [.mk (.mk be (n + be.bytes.length) (.Literal k) (n + be.bytes.length + k.length) ae)
          value]
  | cons (n : Int) {be ae : Extra} {k v s : Bytes} {value : Value}
      {ms : List ObjectMember} :
      L.isExtras be.bytes = true → L.isName k = true → L.isExtras ae.bytes = true →
      ParsesValue L H (n + be.bytes.length + k.length + ae.bytes.length + 1) v value →
      ParsesMembers L H
        (n + be.bytes.length + k.length + ae.bytes.length + 1 + v.length + 1) s ms →
      ParsesMembers L H n (be.bytes ++ k ++ ae.bytes ++ [colon] ++ v ++ [comma] ++ s)
        (.mk (.mk be (n + be.bytes.length) (.Literal k) (n + be.bytes.length + k.length) ae)
          value :: ms)
/-- Modelled from the spec: the part of `Parse` for `Value (',' Value)*` starting at
offset `n`, each value with the extras that attach to it. -/
inductive ParsesElements (L : Lexicon) (H : Helpers) : Int → Bytes → List Value → Prop
  | last (n : Int) {v : Bytes} {e : Value} :
      ParsesValue L H n v e → ParsesElements L H n v [e]
  | cons (n : Int) {v s : Bytes} {e : Value} {es : List Value} :
      ParsesValue L H n v e → ParsesElements L H (n + v.length + 1) s es →
      ParsesElements L H n (v ++ [comma] ++ s) (e :: es)
end

/-- Modelled from the spec: `Parse` accepts the input `s` without error and returns
the tree `v`: `Document := Extras Value Extras EOF`, with offsets counted from the
start of the input. -/
def Parses (L : Lexicon) (H : Helpers) (s : Bytes) (v : Value) : Prop :=
  ParsesValue L H 0 s v

/-! ## Go `int` with wrap-around -/

/-- The largest Go `int` on a 64-bit platform. -/
def maxInt64 : Int := 9223372036854775807

/-- The smallest Go `int` on a 64-bit platform. -/
def minInt64 : Int := -9223372036854775808

/-- The value a Go `int` holds for the exact result `x`: two's complement
wrap-around into the range from `minInt64` to `maxInt64`. -/
def wrapInt64 (x : Int) : Int :=
  (x + 9223372036854775808) % 18446744073709551616 - 9223372036854775808

mutual
/-- Go `Value.updateOffsets` (pack.go 12-46) with every `+=` and `-=` wrapping as
Go `int` does. -/
def Value.updateOffsets64 (H : Helpers) : Value → Int → Value × Int
  | .mk be _ v2 _ ae, n =>
    let n := wrapInt64 (n + be.bytes.length)
    let start := n
    let r := Payload.updateOffsets64 H v2 n
    let n := r.2
    (.mk be start r.1 n ae, wrapInt64 (n + ae.bytes.length))
/-- The type switch of `Value.updateOffsets` (pack.go 15-42) with wrapping
arithmetic. -/
def Payload.updateOffsets64 (H : Helpers) : Payload → Int → Payload × Int
  | .none, n => (.none, n)
  | .Literal lit, n => (.Literal lit, wrapInt64 (n + lit.length))
  | .Object ms ae, n =>
    let n := wrapInt64 (n + 1)
    let r := updateMembers64 H ms n
    let v2 := Payload.Object r.1 ae
    let n := r.2
    let n := if v2.length > 0 && !H.hasTrailingComma v2 then wrapInt64 (n - 1) else n
    let n := wrapInt64 (n + ae.bytes.length)
    (v2, wrapInt64 (n + 1))
  | .Array es ae, n =>
    let n := wrapInt64 (n + 1)
    let r := updateElements64 H es n
    let v2 := Payload.Array r.1 ae
    let n := r.2
    let n := if v2.length > 0 && !H.hasTrailingComma v2 then wrapInt64 (n - 1) else n
    let n := wrapInt64 (n + ae.bytes.length)
    (v2, wrapInt64 (n + 1))
/-- The loop over `v2.Members` (pack.go 20-25) with wrapping arithmetic. -/
def updateMembers64 (H : Helpers) : List ObjectMember → Int → List ObjectMember × Int
  | [], n => ([], n)
  | .mk name value :: ms, n =>
    let r1 := Value.updateOffsets64 H name n
    let n := wrapInt64 (r1.2 + 1)
    let r2 := Value.updateOffsets64 H value n
    let n := wrapInt64 (r2.2 + 1)
    let r := updateMembers64 H ms n
    (.mk r1.1 r2.1 :: r.1, r.2)
/-- The loop over `v2.Elements` (pack.go 33-36) with wrapping arithmetic. -/
def updateElements64 (H : Helpers) : List Value → Int → List Value × Int
  | [], n => ([], n)
  | e :: es, n =>
    let r1 := Value.updateOffsets64 H e n
    let n := wrapInt64 (r1.2 + 1)
    let r := updateElements64 H es n
    (r1.1 :: r.1, r.2)
end

/-! ## Vocabulary of the later properties -/

/-- Go `Value.String` (pack.go 60-62); a Go string is its sequence of bytes, and the
conversion from `[]byte` keeps every byte. -/
def Value.String (H : Helpers) (v : Value) : Bytes :=
  v.append H [] false

/-- The helpers with `isUnquotedKey` replaced by the test that never holds. -/
def Helpers.noKeys (H : Helpers) : Helpers :=
  { hasTrailingComma := H.hasTrailingComma, isUnquotedKey := fun _ => false }

mutual
/-- The tree with every `StartOffset` and `EndOffset` set to zero: what is left is
every extra, every literal and the members and elements in their order. -/
def Value.eraseOffsets : Value → Value
  | .mk be _ p _ ae => .mk be 0 (Payload.eraseOffsets p) 0 ae
/-- The payload with the offsets of the nodes below it set to zero. -/
def Payload.eraseOffsets : Payload → Payload
  | .none => .none
  | .Literal lit => .Literal lit
  | .Object ms ae => .Object (eraseMembers ms) ae
  | .Array es ae => .Array (eraseElements es) ae
/-- The members with their offsets set to zero. -/
def eraseMembers : List ObjectMember → List ObjectMember
  | [] => []
  | .mk name value :: ms =>
    .mk (Value.eraseOffsets name) (Value.eraseOffsets value) :: eraseMembers ms
/-- The elements with their offsets set to zero. -/
def eraseElements : List Value → List Value
  | [] => []
  | e :: es => Value.eraseOffsets e :: eraseElements es
end

mutual
/-- The tree with every `StartOffset` and `EndOffset` increased by `k`. -/
def Value.shiftOffsets (k : Int) : Value → Value
  | .mk be s p e ae => .mk be (s + k) (Payload.shiftOffsets k p) (e + k) ae
/-- The payload with the offsets of the nodes below it increased by `k`. -/
def Payload.shiftOffsets (k : Int) : Payload → Payload
  | .none => .none
  | .Literal lit => .Literal lit
  | .Object ms ae => .Object (shiftMembers k ms) ae
  | .Array es ae => .Array (shiftElements k es) ae
/-- The members with their offsets increased by `k`. -/
def shiftMembers (k : Int) : List ObjectMember → List ObjectMember
  | [] => []
  | .mk name value :: ms =>
    .mk (Value.shiftOffsets k name) (Value.shiftOffsets k value) :: shiftMembers k ms
/-- The elements with their offsets increased by `k`. -/
def shiftElements (k : Int) : List Value → List Value
  | [] => []
  | e :: es => Value.shiftOffsets k e :: shiftElements k es
end

/-- The helper `hasTrailingComma` does not read offsets. -/
def Helpers.ignoresOffsets (H : Helpers) : Prop :=
  ∀ p : Payload, H.hasTrailingComma p.eraseOffsets = H.hasTrailingComma p

/-- The literal as `PackWithQuotedKeys` writes it. -/
def quoteLiteral (H : Helpers) (lit : Literal) : Literal :=
  if H.isUnquotedKey lit then [quote] ++ lit ++ [quote] else lit

mutual
/-- The tree with every `Literal` for which `isUnquotedKey` holds replaced by the
same bytes between two `"`; extras, offsets and structure are kept. -/
def Value.quoteKeys (H : Helpers) : Value → Value
  | .mk be s p e ae => .mk be s (Payload.quoteKeys H p) e ae
/-- The payload with the unquoted keys at and below it quoted. -/
def Payload.quoteKeys (H : Helpers) : Payload → Payload
  | .none => .none
  | .Literal lit => .Literal (quoteLiteral H lit)
  | .Object ms ae => .Object (quoteMembers H ms) ae
  | .Array es ae => .Array (quoteElements H es) ae
/-- The members with their unquoted keys quoted. -/
def quoteMembers (H : Helpers) : List ObjectMember → List ObjectMember
  | [] => []
  | .mk name value :: ms =>
    .mk (Value.quoteKeys H name) (Value.quoteKeys H value) :: quoteMembers H ms
/-- The elements with their unquoted keys quoted. -/
def quoteElements (H : Helpers) : List Value → List Value
  | [] => []
  | e :: es => Value.quoteKeys H e :: quoteElements H es
end

mutual
/-- The number of literals of the tree for which `isUnquotedKey` holds. -/
def Value.countKeys (H : Helpers) : Value → Nat
  | .mk _ _ p _ _ => Payload.countKeys H p
/-- The number of such literals at and below a payload. -/
def Payload.countKeys (H : Helpers) : Payload → Nat
  | .none => 0
  | .Literal lit => if H.isUnquotedKey lit then 1 else 0
  | .Object ms _ => countKeysMembers H ms
  | .Array es _ => countKeysElements H es
/-- The number of such literals in a list of members. -/
def countKeysMembers (H : Helpers) : List ObjectMember → Nat
  | [] => 0
  | .mk name value :: ms =>
    Value.countKeys H name + Value.countKeys H value + countKeysMembers H ms
/-- The number of such literals in a list of elements. -/
def countKeysElements (H : Helpers) : List Value → Nat
  | [] => 0
  | e :: es => Value.countKeys H e + countKeysElements H es
end

/-- The helper `hasTrailingComma` does not read the bytes of literals: it reports
the same for a composite and for the composite with its unquoted keys quoted. -/
def Helpers.ignoresQuoting (H : Helpers) : Prop :=
  ∀ p : Payload, H.hasTrailingComma (p.quoteKeys H) = H.hasTrailingComma p

/-- The offsets of a composite and of its children are properly nested and
ordered: every child lies strictly inside the composite, a name ends before its
value starts, and each child ends before the next one starts. -/
def Value.childrenOrdered : Value → Prop
  | .mk _ s (.Array es _) e _ =>
    (∀ c ∈ es, s < c.StartOffset ∧ c.EndOffset < e) ∧
      List.Chain' (fun a b : Value => a.EndOffset < b.StartOffset) es
  | .mk _ s (.Object ms _) e _ =>
    (∀ m ∈ ms, s < m.Name.StartOffset ∧ m.Name.EndOffset < e ∧
        s < m.Value.StartOffset ∧ m.Value.EndOffset < e ∧
        m.Name.EndOffset < m.Value.StartOffset) ∧
      List.Chain' (fun a b : ObjectMember => a.Value.EndOffset < b.Name.StartOffset) ms
  | _ => True

/-- The partial tree `Parse` returns for the input of a space and the byte `0xff`
(json_test.go 244-250): no payload, `StartOffset` 1 and `EndOffset` 0. -/
def treePartial : Value :=
  .mk (.buf (str " ")) 1 .none 0 .null

/-! ## Buffer threading

`append` extends the buffer it is given: everything a node writes comes after the
bytes already there, and the re-slice of a composite removes the comma its own
loop wrote last. -/

theorem appendLiteral_eq (H : Helpers) (lit : Literal) (b : Bytes) (q : Bool) :
    appendLiteral H lit b q = b ++ appendLiteral H lit [] q := by
  unfold appendLiteral
  split <;> simp

theorem take_pred_append {X : Bytes} (p : Bytes) (hX : X ≠ []) :
    (p ++ X).take ((p ++ X).length - 1) = p ++ X.take (X.length - 1) := by
  rw [← List.dropLast_eq_take, ← List.dropLast_eq_take, List.dropLast_append_of_ne_nil p hX]

mutual
theorem Value_append_eq (H : Helpers) :
    ∀ (v : Value) (b : Bytes) (q : Bool), v.append H b q = b ++ v.append H [] q
  | .mk be _ v2 _ ae, b, q => by
    simp only [Value.append]
    rw [Payload_append_eq H v2 (b ++ be.bytes) q, Payload_append_eq H v2 ([] ++ be.bytes) q]
    simp
theorem Payload_append_eq (H : Helpers) :
    ∀ (p : Payload) (b : Bytes) (q : Bool), p.append H b q = b ++ p.append H [] q
  | .none, b, q => by simp [Payload.append]
  | .Literal lit, b, q => by
    simp only [Payload.append]
    exact appendLiteral_eq H lit b q
  | .Object ms ae, b, q => by
    simp only [Payload.append]
    rw [appendMembers_eq H ms (b ++ [lbrace]) q, appendMembers_eq H ms ([] ++ [lbrace]) q]
    cases ms with
    | nil => simp [Payload.length, appendMembers]
    | cons m ms =>
      have hne : appendMembers H (m :: ms) [] q ≠ [] := appendMembers_ne_nil H m ms q
      split
      · rw [take_pred_append _ hne, take_pred_append _ hne]
        simp
      · simp
  | .Array es ae, b, q => by
    simp only [Payload.append]
    rw [appendElements_eq H es (b ++ [lbracket]) q, appendElements_eq H es ([] ++ [lbracket]) q]
    cases es with
    | nil => simp [Payload.length, appendElements]
    | cons e es =>
      have hne : appendElements H (e :: es) [] q ≠ [] := appendElements_ne_nil H e es q
      split
      · rw [take_pred_append _ hne, take_pred_append _ hne]
        simp
      · simp
theorem appendMembers_eq (H : Helpers) :
    ∀ (ms : List ObjectMember) (b : Bytes) (q : Bool),
      appendMembers H ms b q = b ++ appendMembers H ms [] q
  | [], b, q => by simp [appendMembers]
  | .mk name value :: ms, b, q => by
    simp only [appendMembers]
    rw [appendMembers_eq H ms _ q, Value_append_eq H value _ q, Value_append_eq H name b q]
    conv_rhs => rw [appendMembers_eq H ms _ q, Value_append_eq H value _ q]
    simp
theorem appendMembers_ne_nil (H : Helpers) :
    ∀ (m : ObjectMember) (ms : List ObjectMember) (q : Bool),
      appendMembers H (m :: ms) [] q ≠ []
  | .mk name value, ms, q => by
    simp only [appendMembers]
    rw [appendMembers_eq H ms _ q]
    simp
theorem appendElements_eq (H : Helpers) :
    ∀ (es : List Value) (b : Bytes) (q : Bool),
      appendElements H es b q = b ++ appendElements H es [] q
  | [], b, q => by simp [appendElements]
  | e :: es, b, q => by
    simp only [appendElements]
    rw [appendElements_eq H es _ q, Value_append_eq H e b q]
    conv_rhs => rw [appendElements_eq H es _ q]
    simp
theorem appendElements_ne_nil (H : Helpers) :
    ∀ (e : Value) (es : List Value) (q : Bool), appendElements H (e :: es) [] q ≠ []
  | e, es, q => by
    simp only [appendElements]
    rw [appendElements_eq H es _ q]
    simp
end

/-! ## Closed form of the packed text -/

theorem Value_Pack_eq (H : Helpers) (be : Extra) (s : Int) (p : Payload) (e : Int)
    (ae : Extra) :
    (Value.mk be s p e ae).Pack H = be.bytes ++ (p.Pack H ++ ae.bytes) := by
  simp only [Value.Pack, Value.append, Payload.Pack]
  rw [Payload_append_eq]
  simp

theorem Value_Pack_eq_fields (H : Helpers) (v : Value) :
    v.Pack H = v.BeforeExtra.bytes ++ (v.payload.Pack H ++ v.AfterExtra.bytes) := by
  cases v with
  | mk be s p e ae => exact Value_Pack_eq H be s p e ae

theorem appendElements_flatten (H : Helpers) (q : Bool) :
    ∀ es : List Value, appendElements H es [] q
      = (es.map (fun e => e.append H [] q ++ [comma])).flatten
  | [] => by simp [appendElements]
  | e :: es => by
    simp only [appendElements]
    rw [appendElements_eq, appendElements_flatten H q es]
    simp

theorem appendMembers_flatten (H : Helpers) (q : Bool) :
    ∀ ms : List ObjectMember, appendMembers H ms [] q
      = (ms.map (fun m =>
          (m.Name.append H [] q ++ [colon] ++ m.Value.append H [] q) ++ [comma])).flatten
  | [] => by simp [appendMembers]
  | .mk name value :: ms => by
    simp only [appendMembers]
    rw [appendMembers_eq, appendMembers_flatten H q ms, Value_append_eq H value]
    simp [ObjectMember.Name, ObjectMember.Value]

theorem Payload_append_Array (H : Helpers) (q : Bool) (es : List Value) (ae : Extra) :
    (Payload.Array es ae).append H [] q
      = [lbracket] ++ (commaTerminated (es.map (fun e => e.append H [] q))
          (H.hasTrailingComma (.Array es ae)) ++ (ae.bytes ++ [rbracket])) := by
  simp only [Payload.append, commaTerminated, List.nil_append]
  rw [appendElements_eq, appendElements_flatten]
  cases es with
  | nil => simp [Payload.length]
  | cons e es =>
    have hne : (List.map (fun e => Value.append H e [] q ++ [comma]) (e :: es)).flatten
        ≠ [] := by simp
    cases hT : H.hasTrailingComma (.Array (e :: es) ae)
    · simp only [Payload.length, List.length_cons, gt_iff_lt, Nat.zero_lt_succ,
        decide_True, Bool.not_false, Bool.and_self, if_true]
      rw [take_pred_append _ hne, ← List.dropLast_eq_take]
      simp [Function.comp_def]
    · simp [Payload.length, Function.comp_def]

theorem Payload_append_Object (H : Helpers) (q : Bool) (ms : List ObjectMember)
    (ae : Extra) :
    (Payload.Object ms ae).append H [] q
      = [lbrace] ++ (commaTerminated
          (ms.map (fun m => m.Name.append H [] q ++ [colon] ++ m.Value.append H [] q))
          (H.hasTrailingComma (.Object ms ae)) ++ (ae.bytes ++ [rbrace])) := by
  simp only [Payload.append, commaTerminated, List.nil_append]
  rw [appendMembers_eq, appendMembers_flatten]
  cases ms with
  | nil => simp [Payload.length]
  | cons m ms =>
    have hne : (List.map (fun m => (m.Name.append H [] q ++ [colon]
        ++ m.Value.append H [] q) ++ [comma]) (m :: ms)).flatten ≠ [] := by simp
    cases hT : H.hasTrailingComma (.Object (m :: ms) ae)
    · simp only [Payload.length, List.length_cons, gt_iff_lt, Nat.zero_lt_succ,
        decide_True, Bool.not_false, Bool.and_self, if_true]
      rw [take_pred_append _ hne, ← List.dropLast_eq_take]
      simp [Function.comp_def]
    · simp [Payload.length, Function.comp_def]

theorem Payload_Pack_Array (H : Helpers) (es : List Value) (ae : Extra) :
    (Payload.Array es ae).Pack H
      = [lbracket] ++ (commaTerminated (es.map (fun e => e.Pack H))
          (H.hasTrailingComma (.Array es ae)) ++ (ae.bytes ++ [rbracket])) :=
  Payload_append_Array H false es ae

theorem Payload_Pack_Object (H : Helpers) (ms : List ObjectMember) (ae : Extra) :
    (Payload.Object ms ae).Pack H
      = [lbrace] ++ (commaTerminated (ms.map (fun m => m.Pack H))
          (H.hasTrailingComma (.Object ms ae)) ++ (ae.bytes ++ [rbrace])) :=
  Payload_append_Object H false ms ae

theorem Value_append_nil (H : Helpers) (q : Bool) (be : Extra) (s : Int) (p : Payload)
    (e : Int) (ae : Extra) :
    (Value.mk be s p e ae).append H [] q = be.bytes ++ (p.append H [] q ++ ae.bytes) := by
  simp only [Value.append]
  rw [Payload_append_eq]
  simp

theorem Payload_Pack_Object_raw (H : Helpers) (ms : List ObjectMember) (ae : Extra) :
    (Payload.Object ms ae).Pack H
      = [lbrace] ++ ((if ms.length > 0 && !H.hasTrailingComma (.Object ms ae)
          then (appendMembers H ms [] false).dropLast else appendMembers H ms [] false)
          ++ (ae.bytes ++ [rbrace])) := by
  simp only [Payload.Pack, Payload.append, List.nil_append, Payload.length]
  rw [appendMembers_eq]
  cases ms with
  | nil => simp
  | cons m ms =>
    split
    · rw [take_pred_append _ (appendMembers_ne_nil H m ms false), ← List.dropLast_eq_take]
      simp
    · simp

theorem Payload_Pack_Array_raw (H : Helpers) (es : List Value) (ae : Extra) :
    (Payload.Array es ae).Pack H
      = [lbracket] ++ ((if es.length > 0 && !H.hasTrailingComma (.Array es ae)
          then (appendElements H es [] false).dropLast else appendElements H es [] false)
          ++ (ae.bytes ++ [rbracket])) := by
  simp only [Payload.Pack, Payload.append, List.nil_append, Payload.length]
  rw [appendElements_eq]
  cases es with
  | nil => simp
  | cons e es =>
    split
    · rw [take_pred_append _ (appendElements_ne_nil H e es false), ← List.dropLast_eq_take]
      simp
    · simp

/-! ## The offsets written by `updateOffsets` -/

theorem Located_embed {H : Helpers} {P : Bytes} {n : Int} {d : Value} (a b : Bytes)
    {m : Int} (hm : m = n + a.length) (h : Located H P m d) :
    Located H (a ++ (P ++ b)) n d := by
  obtain ⟨pre, post, hP, hs, he⟩ := h
  refine ⟨a ++ pre, post ++ b, ?_, ?_, he⟩
  · rw [hP]; simp
  · rw [hs, hm]; simp; omega

theorem LocatedInList_embed {H : Helpers} {X : Bytes} {n : Int} {d : Value} (a b : Bytes)
    {m : Int} (hm : m = n + a.length) (h : Located H X m d) :
    LocatedInList H (a ++ (X ++ (b ++ [comma]))) n d := by
  refine ⟨a ++ (X ++ b), by simp, Located_embed a b hm h⟩

theorem LocatedInList_shift {H : Helpers} {X : Bytes} {n : Int} {d : Value} (a : Bytes)
    {m : Int} (hm : m = n + a.length) (h : LocatedInList H X m d) :
    LocatedInList H (a ++ X) n d := by
  obtain ⟨Y, hX, hY⟩ := h
  refine ⟨a ++ Y, by rw [hX]; simp, ?_⟩
  have := Located_embed a [] hm hY
  simpa using this

theorem appendMembers_comma (H : Helpers) (ms : List ObjectMember) (q : Bool) :
    ∃ T : Bytes, [comma] ++ appendMembers H ms [] q = T ++ [comma] := by
  rw [appendMembers_flatten]
  induction ms with
  | nil => exact ⟨[], by simp⟩
  | cons m ms ih =>
    obtain ⟨T, hT⟩ := ih
    refine ⟨[comma] ++ (m.Name.append H [] q ++ [colon] ++ m.Value.append H [] q) ++ T, ?_⟩
    simp only [List.map_cons, List.flatten_cons, List.append_assoc] at hT ⊢
    rw [hT]

theorem appendElements_comma (H : Helpers) (es : List Value) (q : Bool) :
    ∃ T : Bytes, [comma] ++ appendElements H es [] q = T ++ [comma] := by
  rw [appendElements_flatten]
  induction es with
  | nil => exact ⟨[], by simp⟩
  | cons e es ih =>
    obtain ⟨T, hT⟩ := ih
    refine ⟨[comma] ++ e.append H [] q ++ T, ?_⟩
    simp only [List.map_cons, List.flatten_cons, List.append_assoc] at hT ⊢
    rw [hT]

mutual
theorem Value_updateOffsets_spec (H : Helpers) :
    ∀ (v : Value) (n : Int),
      (v.updateOffsets H n).2 = n + ((v.updateOffsets H n).1.Pack H).length ∧
      ∀ d ∈ (v.updateOffsets H n).1.nodes, Located H ((v.updateOffsets H n).1.Pack H) n d
  | .mk be s p e ae, n => by
    have ih := Payload_updateOffsets_spec H p (n + be.bytes.length)
    simp only [Value.updateOffsets]
    generalize Payload.updateOffsets H p (n + be.bytes.length) = r at ih ⊢
    obtain ⟨p', k⟩ := r
    simp only at ih ⊢
    obtain ⟨hk, hloc⟩ := ih
    rw [Value_Pack_eq]
    refine ⟨by simp; omega, ?_⟩
    intro d hd
    simp only [Value.nodes, List.mem_cons] at hd
    rcases hd with rfl | hd
    · refine ⟨be.bytes, ae.bytes, rfl, rfl, ?_⟩
      simp only [Value.EndOffset, Value.StartOffset, Value.payload]
      omega
    · exact Located_embed be.bytes ae.bytes rfl (hloc d hd)
theorem Payload_updateOffsets_spec (H : Helpers) :
    ∀ (p : Payload) (n : Int),
      (p.updateOffsets H n).2 = n + ((p.updateOffsets H n).1.Pack H).length ∧
      ∀ d ∈ (p.updateOffsets H n).1.nodes, Located H ((p.updateOffsets H n).1.Pack H) n d
  | .none, n => by
    simp [Payload.updateOffsets, Payload.Pack, Payload.append, Payload.nodes]
  | .Literal lit, n => by
    simp [Payload.updateOffsets, Payload.Pack, Payload.append, Payload.nodes, appendLiteral]
  | .Object ms ae, n => by
    have ih := updateMembers_spec H ms (n + 1)
    simp only [Payload.updateOffsets]
    generalize updateMembers H ms (n + 1) = r at ih ⊢
    obtain ⟨ms', k⟩ := r
    simp only at ih ⊢
    obtain ⟨hk, hloc⟩ := ih
    rw [Payload_Pack_Object_raw]
    simp only [Payload.nodes, Payload.length]
    cases ms' with
    | nil =>
      simp only [membersNodes, appendMembers] at hk ⊢
      refine ⟨?_, by simp⟩
      simp at hk ⊢; omega
    | cons m ms' =>
      have hne := appendMembers_ne_nil H m ms' false
      have hlen : 1 ≤ (appendMembers H (m :: ms') [] false).length :=
        List.length_pos.mpr hne
      cases hT : H.hasTrailingComma (.Object (m :: ms') ae)
      · simp only [List.length_cons, gt_iff_lt, Nat.zero_lt_succ, decide_True, Bool.not_false,
          Bool.and_self, if_true]
        refine ⟨by simp; omega, ?_⟩
        intro d hd
        obtain ⟨Y, hX, hY⟩ := hloc d hd
        rw [hX, List.dropLast_concat]
        exact Located_embed [lbrace] (ae.bytes ++ [rbrace]) (by simp) hY
      · simp only [Bool.not_true, Bool.and_false, if_false]
        refine ⟨by simp; omega, ?_⟩
        intro d hd
        obtain ⟨Y, hX, hY⟩ := hloc d hd
        rw [hX]
        have := Located_embed [lbrace] ([comma] ++ (ae.bytes ++ [rbrace])) (n := n)
          (by simp) hY
        simpa using this
  | .Array es ae, n => by
    have ih := updateElements_spec H es (n + 1)
    simp only [Payload.updateOffsets]
    generalize updateElements H es (n + 1) = r at ih ⊢
    obtain ⟨es', k⟩ := r
    simp only at ih ⊢
    obtain ⟨hk, hloc⟩ := ih
    rw [Payload_Pack_Array_raw]
    simp only [Payload.nodes, Payload.length]
    cases es' with
    | nil =>
      simp only [elementsNodes, appendElements] at hk ⊢
      refine ⟨?_, by simp⟩
      simp at hk ⊢; omega
    | cons e es' =>
      have hne := appendElements_ne_nil H e es' false
      have hlen : 1 ≤ (appendElements H (e :: es') [] false).length :=
        List.length_pos.mpr hne
      cases hT : H.hasTrailingComma (.Array (e :: es') ae)
      · simp only [List.length_cons, gt_iff_lt, Nat.zero_lt_succ, decide_True, Bool.not_false,
          Bool.and_self, if_true]
        refine ⟨by simp; omega, ?_⟩
        intro d hd
        obtain ⟨Y, hX, hY⟩ := hloc d hd
        rw [hX, List.dropLast_concat]
        exact Located_embed [lbracket] (ae.bytes ++ [rbracket]) (by simp) hY
      · simp only [Bool.not_true, Bool.and_false, if_false]
        refine ⟨by simp; omega, ?_⟩
        intro d hd
        obtain ⟨Y, hX, hY⟩ := hloc d hd
        rw [hX]
        have := Located_embed [lbracket] ([comma] ++ (ae.bytes ++ [rbracket])) (n := n)
          (by simp) hY
        simpa using this
theorem updateMembers_spec (H : Helpers) :
    ∀ (ms : List ObjectMember) (n : Int),
      (updateMembers H ms n).2 = n + (appendMembers H (updateMembers H ms n).1 [] false).length ∧
      ∀ d ∈ membersNodes (updateMembers H ms n).1,
        LocatedInList H (appendMembers H (updateMembers H ms n).1 [] false) n d
  | [], n => by simp [updateMembers, appendMembers, membersNodes]
  | .mk name value :: ms, n => by
    have ih1 := Value_updateOffsets_spec H name n
    simp only [updateMembers]
    generalize Value.updateOffsets H name n = r1 at ih1 ⊢
    obtain ⟨name', k1⟩ := r1
    simp only at ih1 ⊢
    have ih2 := Value_updateOffsets_spec H value (k1 + 1)
    generalize Value.updateOffsets H value (k1 + 1) = r2 at ih2 ⊢
    obtain ⟨value', k2⟩ := r2
    simp only at ih2 ⊢
    have ih3 := updateMembers_spec H ms (k2 + 1)
    generalize updateMembers H ms (k2 + 1) = r3 at ih3 ⊢
    obtain ⟨ms', k3⟩ := r3
    simp only at ih3 ⊢
    obtain ⟨hk1, hloc1⟩ := ih1
    obtain ⟨hk2, hloc2⟩ := ih2
    obtain ⟨hk3, hloc3⟩ := ih3
    have hP : appendMembers H (.mk name' value' :: ms') [] false
        = name'.Pack H ++ ([colon] ++ (value'.Pack H ++ ([comma]
            ++ appendMembers H ms' [] false))) := by
      simp only [appendMembers]
      rw [appendMembers_eq, Value_append_eq H value']
      simp [Value.Pack]
    rw [hP]
    obtain ⟨T, hT⟩ := appendMembers_comma H ms' false
    refine ⟨by simp; omega, ?_⟩
    intro d hd
    simp only [membersNodes, List.mem_append] at hd
    rcases hd with hd | hd | hd
    · have e : name'.Pack H ++ ([colon] ++ (value'.Pack H ++ ([comma]
          ++ appendMembers H ms' [] false)))
          = [] ++ (name'.Pack H ++ (([colon] ++ (value'.Pack H ++ T)) ++ [comma])) := by
        rw [hT]; simp
      rw [e]
      exact LocatedInList_embed [] _ (by simp) (hloc1 d hd)
    · have e : name'.Pack H ++ ([colon] ++ (value'.Pack H ++ ([comma]
          ++ appendMembers H ms' [] false)))
          = (name'.Pack H ++ [colon]) ++ (value'.Pack H ++ (T ++ [comma])) := by
        rw [hT]; simp
      rw [e]
      exact LocatedInList_embed _ _ (by simp; omega) (hloc2 d hd)
    · have e : name'.Pack H ++ ([colon] ++ (value'.Pack H ++ ([comma]
          ++ appendMembers H ms' [] false)))
          = (name'.Pack H ++ ([colon] ++ (value'.Pack H ++ [comma])))
            ++ appendMembers H ms' [] false := by
        simp
      rw [e]
      exact LocatedInList_shift _ (by simp; omega) (hloc3 d hd)
theorem updateElements_spec (H : Helpers) :
    ∀ (es : List Value) (n : Int),
      (updateElements H es n).2
        = n + (appendElements H (updateElements H es n).1 [] false).length ∧
      ∀ d ∈ elementsNodes (updateElements H es n).1,
        LocatedInList H (appendElements H (updateElements H es n).1 [] false) n d
  | [], n => by simp [updateElements, appendElements, elementsNodes]
  | e :: es, n => by
    have ih1 := Value_updateOffsets_spec H e n
    simp only [updateElements]
    generalize Value.updateOffsets H e n = r1 at ih1 ⊢
    obtain ⟨e', k1⟩ := r1
    simp only at ih1 ⊢
    have ih3 := updateElements_spec H es (k1 + 1)
    generalize updateElements H es (k1 + 1) = r3 at ih3 ⊢
    obtain ⟨es', k3⟩ := r3
    simp only at ih3 ⊢
    obtain ⟨hk1, hloc1⟩ := ih1
    obtain ⟨hk3, hloc3⟩ := ih3
    have hP : appendElements H (e' :: es') [] false
        = e'.Pack H ++ ([comma] ++ appendElements H es' [] false) := by
      simp only [appendElements]
      rw [appendElements_eq]
      simp [Value.Pack]
    rw [hP]
    obtain ⟨T, hT⟩ := appendElements_comma H es' false
    refine ⟨by simp; omega, ?_⟩
    intro d hd
    simp only [elementsNodes, List.mem_append] at hd
    rcases hd with hd | hd
    · have e : e'.Pack H ++ ([comma] ++ appendElements H es' [] false)
          = [] ++ (e'.Pack H ++ (T ++ [comma])) := by
        rw [hT]; simp
      rw [e]
      exact LocatedInList_embed [] _ (by simp) (hloc1 d hd)
    · have e : e'.Pack H ++ ([comma] ++ appendElements H es' [] false)
          = (e'.Pack H ++ [comma]) ++ appendElements H es' [] false := by
        simp
      rw [e]
      exact LocatedInList_shift _ (by simp; omega) (hloc3 d hd)
end

/-! ## Offsets and the packed text (C1) -/

theorem Value_trimExtras_Pack (H : Helpers) (v : Value) :
    v.trimExtras.Pack H = v.payload.Pack H := by
  cases v with
  | mk be s p e ae => simp [Value.trimExtras, Value_Pack_eq, Value.payload, Extra.bytes]

theorem slice_of_located {H : Helpers} {P : Bytes} {d : Value} (h : Located H P 0 d) :
    0 ≤ d.StartOffset ∧ d.StartOffset ≤ d.EndOffset ∧ d.EndOffset ≤ P.length ∧
      slice P d.StartOffset d.EndOffset = d.payload.Pack H := by
  obtain ⟨pre, post, hP, hs, he⟩ := h
  rw [hs] at he
  rw [hs, he, hP]
  refine ⟨by omega, by omega, by simp, ?_⟩
  simp only [slice, zero_add]
  have h1 : ((pre.length : Int)).toNat = pre.length := by simp
  have h2 : ((pre.length : Int) + ((d.payload.Pack H).length : Int)).toNat
      = pre.length + (d.payload.Pack H).length := by omega
  rw [h1, h2, List.drop_left, Nat.add_sub_cancel_left, List.take_left]

/-- C1: after `root.UpdateOffsets()`, for every node `d` of the tree the offsets of
`d` are in range and the bytes of `root.Pack()` from `d.StartOffset` up to but
excluding `d.EndOffset` are the bytes `d.Pack()` produces once `d.BeforeExtra` and
`d.AfterExtra` are set to empty. -/
theorem UpdateOffsets_slice_eq_payload (H : Helpers) (root d : Value)
    (hd : d ∈ (root.UpdateOffsets H).nodes) :
    0 ≤ d.StartOffset ∧ d.StartOffset ≤ d.EndOffset ∧
      d.EndOffset ≤ ((root.UpdateOffsets H).Pack H).length ∧
      slice ((root.UpdateOffsets H).Pack H) d.StartOffset d.EndOffset
        = d.trimExtras.Pack H := by
  rw [Value_trimExtras_Pack]
  exact slice_of_located ((Value_updateOffsets_spec H root 0).2 d hd)

/-- The nodes of the tree for `{pos: {x: 1, y: 2}}` are the root, the three names
and the three values. -/
theorem nodes_treePos :
    treePos.nodes.length = 7 ∧
      treePos.nodes.map (fun d => (d.StartOffset, d.EndOffset))
        = [(0, 19), (1, 4), (6, 18), (7, 8), (10, 11), (13, 14), (16, 17)] := by
  decide

/-- C1 on the tree for ` [ "s" , ] `: the element `"s"` sits at bytes 3 to 6. -/
theorem UpdateOffsets_slice_eq_payload_witness :
    nodeS ∈ (treeArrayTrailing.UpdateOffsets tableHelpers).nodes ∧
      (0 ≤ nodeS.StartOffset ∧ nodeS.StartOffset ≤ nodeS.EndOffset ∧
        nodeS.EndOffset
          ≤ ((treeArrayTrailing.UpdateOffsets tableHelpers).Pack tableHelpers).length ∧
        slice ((treeArrayTrailing.UpdateOffsets tableHelpers).Pack tableHelpers)
            nodeS.StartOffset nodeS.EndOffset
          = nodeS.trimExtras.Pack tableHelpers) :=
  ⟨.tail _ (.head _),
    UpdateOffsets_slice_eq_payload tableHelpers treeArrayTrailing nodeS (.tail _ (.head _))⟩

/-! ## The layout `Pack` writes (C3, C4, C5) -/

/-- C3: `v.Pack()` is `v.BeforeExtra`, then the payload, then `v.AfterExtra`; the
payload is what `Pack` yields once both extras are emptied, and the payload of a
`Literal` is the literal's own bytes whatever `isUnquotedKey` says of it. -/
theorem Pack_concat_extras_payload (H : Helpers) (v : Value) (lit : Literal) :
    v.Pack H = v.BeforeExtra.bytes ++ v.payload.Pack H ++ v.AfterExtra.bytes ∧
      v.trimExtras.Pack H = v.payload.Pack H ∧
      (Payload.Literal lit).Pack H = lit ∧
      ∀ (be : Extra) (s e : Int) (ae : Extra),
        (Value.mk be s (.Literal lit) e ae).Pack H = be.bytes ++ lit ++ ae.bytes := by
  have hl : (Payload.Literal lit).Pack H = lit := by
    simp [Payload.Pack, Payload.append, appendLiteral]
  refine ⟨by rw [Value_Pack_eq_fields]; simp, Value_trimExtras_Pack H v, hl, ?_⟩
  intro be s e ae
  rw [Value_Pack_eq, hl]; simp

theorem flatten_comma_concat (xs : List Bytes) :
    ∃ Y : Bytes, [comma] ++ (xs.map (fun y => y ++ [comma])).flatten = Y ++ [comma] := by
  induction xs with
  | nil => exact ⟨[], by simp⟩
  | cons x xs ih =>
    obtain ⟨Y, hY⟩ := ih
    refine ⟨[comma] ++ x ++ Y, ?_⟩
    simp only [List.map_cons, List.flatten_cons, List.append_assoc] at hY ⊢
    rw [hY]

theorem flatten_comma_dropLast (x : Bytes) (xs : List Bytes) :
    ((x :: xs).map (fun y => y ++ [comma])).flatten
      = commaTerminated (x :: xs) false ++ [comma] := by
  obtain ⟨Y, hY⟩ := flatten_comma_concat xs
  have e : ((x :: xs).map (fun y => y ++ [comma])).flatten = (x ++ Y) ++ [comma] := by
    simp only [List.map_cons, List.flatten_cons, List.append_assoc] at hY ⊢
    rw [hY]
  simp only [commaTerminated, List.length_cons, ge_iff_le, Nat.le_add_left, and_self, if_true]
  rw [e, List.dropLast_concat]

/-- C4: the payload `Pack` writes for an array is `[`, then each element's `Pack`
followed by `,` in order with the final `,` dropped exactly when there is an element
and `hasTrailingComma` reports false, then the array's `AfterExtra`, then `]`; the
byte dropped is a comma, and an empty array packs to `[`, `AfterExtra`, `]`. -/
theorem Pack_array_payload (H : Helpers) (es : List Value) (ae : Extra) :
    (Payload.Array es ae).Pack H
        = [lbracket] ++ commaTerminated (es.map (fun e => e.Pack H))
            (H.hasTrailingComma (.Array es ae)) ++ ae.bytes ++ [rbracket] ∧
      (∀ items : List Bytes, commaTerminated items true
        = (items.map (fun x => x ++ [comma])).flatten) ∧
      (∀ (x : Bytes) (xs : List Bytes), commaTerminated (x :: xs) false ++ [comma]
        = ((x :: xs).map (fun y => y ++ [comma])).flatten) ∧
      (Payload.Array [] ae).Pack H = [lbracket] ++ ae.bytes ++ [rbracket] := by
  refine ⟨by rw [Payload_Pack_Array]; simp, ?_, ?_, ?_⟩
  · intro items; simp [commaTerminated]
  · intro x xs; exact (flatten_comma_dropLast x xs).symm
  · rw [Payload_Pack_Array]; simp [commaTerminated]

/-- C5: the payload `Pack` writes for an object is `{`, then for each member the
`Pack` of its name, `:`, the `Pack` of its value and `,` in order with the final `,`
dropped exactly when there is a member and `hasTrailingComma` reports false, then the
object's `AfterExtra`, then `}`; an empty object packs to `{`, `AfterExtra`, `}`. -/
theorem Pack_object_payload (H : Helpers) (ms : List ObjectMember) (ae : Extra) :
    (Payload.Object ms ae).Pack H
        = [lbrace] ++ commaTerminated
            (ms.map (fun m => m.Name.Pack H ++ [colon] ++ m.Value.Pack H))
            (H.hasTrailingComma (.Object ms ae)) ++ ae.bytes ++ [rbrace] ∧
      (∀ items : List Bytes, commaTerminated items true
        = (items.map (fun x => x ++ [comma])).flatten) ∧
      (∀ (x : Bytes) (xs : List Bytes), commaTerminated (x :: xs) false ++ [comma]
        = ((x :: xs).map (fun y => y ++ [comma])).flatten) ∧
      (Payload.Object [] ae).Pack H = [lbrace] ++ ae.bytes ++ [rbrace] := by
  refine ⟨?_, ?_, ?_, ?_⟩
  · rw [Payload_Pack_Object]; simp [ObjectMember.Pack]
  · intro items; simp [commaTerminated]
  · intro x xs; exact (flatten_comma_dropLast x xs).symm
  · rw [Payload_Pack_Object]; simp [commaTerminated]

/-! ## The span of a node (C6) -/

/-- C6: after `UpdateOffsets`, every node `d` has `StartOffset ≤ EndOffset`, and
`EndOffset - StartOffset` is the length of `d.Pack()` less the lengths of
`d.BeforeExtra` and `d.AfterExtra`. -/
theorem UpdateOffsets_span_eq_payload_length (H : Helpers) (root d : Value)
    (hd : d ∈ (root.UpdateOffsets H).nodes) :
    d.StartOffset ≤ d.EndOffset ∧
      d.EndOffset - d.StartOffset
        = ((d.Pack H).length : Int) - d.BeforeExtra.bytes.length - d.AfterExtra.bytes.length := by
  obtain ⟨pre, post, -, -, he⟩ := (Value_updateOffsets_spec H root 0).2 d hd
  rw [he, Value_Pack_eq_fields]
  simp only [List.length_append]
  push_cast
  omega

/-- C6 on the nested-comment fixture: the empty object spans two bytes. -/
theorem UpdateOffsets_span_eq_payload_length_witness :
    nodeEmptyObject ∈ (treeComments.UpdateOffsets tableHelpers).nodes ∧
      (nodeEmptyObject.StartOffset ≤ nodeEmptyObject.EndOffset ∧
        nodeEmptyObject.EndOffset - nodeEmptyObject.StartOffset
          = ((nodeEmptyObject.Pack tableHelpers).length : Int)
            - nodeEmptyObject.BeforeExtra.bytes.length
            - nodeEmptyObject.AfterExtra.bytes.length) :=
  ⟨.tail _ (.tail _ (.tail _ (.tail _ (.tail _ (.tail _ (.head _)))))),
    UpdateOffsets_span_eq_payload_length tableHelpers treeComments nodeEmptyObject
      (.tail _ (.tail _ (.tail _ (.tail _ (.tail _ (.tail _ (.head _)))))))⟩

/-! ## The comma rule as a length equation (C7) -/

theorem length_flatten_comma (items : List Bytes) :
    ((items.map (fun x => x ++ [comma])).flatten).length
      = (items.map List.length).sum + items.length := by
  induction items with
  | nil => simp
  | cons x xs ih =>
    simp only [List.map_cons, List.flatten_cons, List.length_append, ih, List.sum_cons,
      List.length_cons, List.length_nil]
    omega

theorem length_commaTerminated (items : List Bytes) (t : Bool) :
    (commaTerminated items t).length
      = (items.map List.length).sum + commaCount items.length t := by
  cases items with
  | nil => simp [commaTerminated, commaCount]
  | cons x xs =>
    cases t
    · simp only [commaTerminated, List.length_cons, ge_iff_le, Nat.le_add_left, and_self,
        if_true, List.length_dropLast, length_flatten_comma, commaCount]
      simp
    · have h := length_flatten_comma (x :: xs)
      simp only [commaTerminated, commaCount]
      simp only [List.length_cons, Bool.true_eq_false, and_false, if_false, if_true,
        Nat.add_one_ne_zero] at h ⊢
      exact h

theorem updateElements_length (H : Helpers) :
    ∀ (es : List Value) (n : Int), (updateElements H es n).1.length = es.length
  | [], n => by simp [updateElements]
  | e :: es, n => by
    simp only [updateElements, List.length_cons]
    rw [updateElements_length H es]

theorem updateMembers_length (H : Helpers) :
    ∀ (ms : List ObjectMember) (n : Int), (updateMembers H ms n).1.length = ms.length
  | [], n => by simp [updateMembers]
  | .mk name value :: ms, n => by
    simp only [updateMembers, List.length_cons]
    rw [updateMembers_length H ms]

theorem Payload_length_Pack_Array (H : Helpers) (es : List Value) (ae : Extra) :
    ((Payload.Array es ae).Pack H).length
      = 1 + (es.map (fun e => (e.Pack H).length)).sum
          + commaCount es.length (H.hasTrailingComma (.Array es ae))
          + ae.bytes.length + 1 := by
  rw [Payload_Pack_Array]
  simp only [List.length_append, length_commaTerminated, List.length_map, List.map_map,
    List.length_cons, List.length_nil, Function.comp_def]
  omega

theorem Payload_length_Pack_Object (H : Helpers) (ms : List ObjectMember) (ae : Extra) :
    ((Payload.Object ms ae).Pack H).length
      = 1 + (ms.map (fun m => (m.Name.Pack H).length + 1 + (m.Value.Pack H).length)).sum
          + commaCount ms.length (H.hasTrailingComma (.Object ms ae))
          + ae.bytes.length + 1 := by
  rw [Payload_Pack_Object]
  simp only [List.length_append, length_commaTerminated, List.length_map, List.map_map,
    List.length_cons, List.length_nil, Function.comp_def, ObjectMember.Pack, Nat.zero_add]
  omega

/-- C7: the packed payload of a composite with `N` children has length 1 + the sum
of the packed lengths of its children (a member counts its name, 1 for `:` and its
value) + `c` + the length of its `AfterExtra` + 1, where `c` is 0 when `N = 0`, `N`
when `hasTrailingComma` reports true and `N - 1` otherwise; `updateOffsets` advances
the running offset over a composite by that same amount, with the same `c`. -/
theorem payload_length_comma_rule (H : Helpers) (es : List Value) (ms : List ObjectMember)
    (ae : Extra) (n : Int) :
    (((Payload.Array es ae).Pack H).length
        = 1 + (es.map (fun e => (e.Pack H).length)).sum
            + commaCount es.length (H.hasTrailingComma (.Array es ae))
            + ae.bytes.length + 1) ∧
      (((Payload.Object ms ae).Pack H).length
        = 1 + (ms.map (fun m => (m.Name.Pack H).length + 1 + (m.Value.Pack H).length)).sum
            + commaCount ms.length (H.hasTrailingComma (.Object ms ae))
            + ae.bytes.length + 1) ∧
      ((Payload.updateOffsets H (.Array es ae) n).1
          = .Array (updateElements H es (n + 1)).1 ae ∧
        (updateElements H es (n + 1)).1.length = es.length ∧
        (Payload.updateOffsets H (.Array es ae) n).2
          = n + (1 + ((updateElements H es (n + 1)).1.map (fun e => (e.Pack H).length)).sum
              + commaCount es.length
                  (H.hasTrailingComma (.Array (updateElements H es (n + 1)).1 ae))
              + ae.bytes.length + 1 : Nat)) ∧
      ((Payload.updateOffsets H (.Object ms ae) n).1
          = .Object (updateMembers H ms (n + 1)).1 ae ∧
        (updateMembers H ms (n + 1)).1.length = ms.length ∧
        (Payload.updateOffsets H (.Object ms ae) n).2
          = n + (1 + ((updateMembers H ms (n + 1)).1.map
                  (fun m => (m.Name.Pack H).length + 1 + (m.Value.Pack H).length)).sum
              + commaCount ms.length
                  (H.hasTrailingComma (.Object (updateMembers H ms (n + 1)).1 ae))
              + ae.bytes.length + 1 : Nat)) := by
  refine ⟨Payload_length_Pack_Array H es ae, Payload_length_Pack_Object H ms ae,
    ⟨rfl, updateElements_length H es _, ?_⟩, ⟨rfl, updateMembers_length H ms _, ?_⟩⟩
  · have h := (Payload_updateOffsets_spec H (.Array es ae) n).1
    rw [h]
    have e : (Payload.updateOffsets H (.Array es ae) n).1
        = .Array (updateElements H es (n + 1)).1 ae := rfl
    rw [e, Payload_length_Pack_Array, updateElements_length]
  · have h := (Payload_updateOffsets_spec H (.Object ms ae) n).1
    rw [h]
    have e : (Payload.updateOffsets H (.Object ms ae) n).1
        = .Object (updateMembers H ms (n + 1)).1 ae := rfl
    rw [e, Payload_length_Pack_Object, updateMembers_length]

/-! ## Quoted keys (C8) -/

/-- C8, as stated, fails: with the unquoted keys of the scanner, the literal `k` is
wrapped in quotes by `PackWithQuotedKeys` as the top-level value and as an array
element, while `Pack` emits its own bytes. -/
theorem PackWithQuotedKeys_quotes_outside_names :
    topKey.PackWithQuotedKeys tableHelpers = str "\"k\"" ∧
      topKey.Pack tableHelpers = str "k" ∧
      arrayOfKey.PackWithQuotedKeys tableHelpers = str "[\"k\"]" ∧
      arrayOfKey.Pack tableHelpers = str "[k]" := by
  decide

/-- C8, amended: `PackWithQuotedKeys` wraps a literal in double quotes exactly when
`isUnquotedKey` holds for it and otherwise emits its own bytes, and it does so in
every position, since the elements of an array and the names and values of the
members of an object are packed by `PackWithQuotedKeys` itself; extras and
structural bytes are laid out as in `Pack`. -/
theorem PackWithQuotedKeys_by_literal (H : Helpers) (be : Extra) (s e : Int) (ae : Extra) :
    (∀ lit : Literal, (Value.mk be s (.Literal lit) e ae).PackWithQuotedKeys H
        = be.bytes ++ (if H.isUnquotedKey lit then [quote] ++ lit ++ [quote] else lit)
            ++ ae.bytes) ∧
      (∀ (es : List Value) (ae2 : Extra),
        (Value.mk be s (.Array es ae2) e ae).PackWithQuotedKeys H
          = be.bytes ++ [lbracket]
            ++ commaTerminated (es.map (fun x => x.PackWithQuotedKeys H))
                (H.hasTrailingComma (.Array es ae2))
            ++ ae2.bytes ++ [rbracket] ++ ae.bytes) ∧
      (∀ (ms : List ObjectMember) (ae2 : Extra),
        (Value.mk be s (.Object ms ae2) e ae).PackWithQuotedKeys H
          = be.bytes ++ [lbrace]
            ++ commaTerminated (ms.map (fun m =>
                  m.Name.PackWithQuotedKeys H ++ [colon] ++ m.Value.PackWithQuotedKeys H))
                (H.hasTrailingComma (.Object ms ae2))
            ++ ae2.bytes ++ [rbrace] ++ ae.bytes) ∧
      (Value.mk be s .none e ae).PackWithQuotedKeys H = be.bytes ++ ae.bytes := by
  refine ⟨?_, ?_, ?_, ?_⟩
  · intro lit
    rw [Value.PackWithQuotedKeys, Value_append_nil]
    simp only [Payload.append, appendLiteral, Bool.true_and]
    split <;> simp
  · intro es ae2
    rw [Value.PackWithQuotedKeys, Value_append_nil, Payload_append_Array]
    simp [Value.PackWithQuotedKeys]
  · intro ms ae2
    rw [Value.PackWithQuotedKeys, Value_append_nil, Payload_append_Object]
    simp [Value.PackWithQuotedKeys]
  · rw [Value.PackWithQuotedKeys, Value_append_nil]
    simp [Payload.append]

/-! ## Validity of the packed text (C9) -/

theorem commaTerminated_single (x : Bytes) (t : Bool) :
    commaTerminated [x] t = if t then x ++ [comma] else x := by
  cases t <;> simp [commaTerminated]

theorem commaTerminated_cons_cons (x y : Bytes) (r : List Bytes) (t : Bool) :
    commaTerminated (x :: y :: r) t = x ++ [comma] ++ commaTerminated (y :: r) t := by
  cases t
  · have h := flatten_comma_dropLast y r
    have h2 := flatten_comma_dropLast x (y :: r)
    rw [List.map_cons, List.flatten_cons, h] at h2
    have h3 : (x ++ [comma] ++ commaTerminated (y :: r) false) ++ [comma]
        = commaTerminated (x :: y :: r) false ++ [comma] := by
      rw [← h2]; simp
    exact (List.append_cancel_right h3).symm
  · simp [commaTerminated]

theorem GMembers_commaTerminated (L : Lexicon) (t : Bool) :
    ∀ (x : Bytes) (xs : List Bytes), (∀ y ∈ x :: xs, GMember L y) →
      GMembers L (commaTerminated (x :: xs) t)
  | x, [], h => by
    rw [commaTerminated_single]
    cases t
    · exact GMembers.last (h x (List.mem_cons_self _ _))
    · exact GMembers.lastComma (h x (List.mem_cons_self _ _))
  | x, y :: r, h => by
    rw [commaTerminated_cons_cons]
    exact GMembers.cons (h x (List.mem_cons_self _ _))
      (GMembers_commaTerminated L t y r (fun z hz => h z (List.mem_cons_of_mem _ hz)))

theorem GElements_commaTerminated (L : Lexicon) (t : Bool) :
    ∀ (x : Bytes) (xs : List Bytes), (∀ y ∈ x :: xs, GElement L y) →
      GElements L (commaTerminated (x :: xs) t)
  | x, [], h => by
    rw [commaTerminated_single]
    obtain ⟨a, v, b, rfl, ha, hv, hb⟩ := h x (List.mem_cons_self _ _)
    cases t
    · exact GElements.last ha hv hb
    · exact GElements.lastComma ha hv hb
  | x, y :: r, h => by
    rw [commaTerminated_cons_cons]
    obtain ⟨a, v, b, rfl, ha, hv, hb⟩ := h x (List.mem_cons_self _ _)
    exact GElements.cons ha hv hb
      (GElements_commaTerminated L t y r (fun z hz => h z (List.mem_cons_of_mem _ hz)))

mutual
theorem Value_GElement (L : Lexicon) (H : Helpers) :
    ∀ v : Value, v.validFragments L = true → v.complete = true → GElement L (v.Pack H)
  | .mk be s p e ae, hv, hc => by
    simp only [Value.validFragments, Bool.and_eq_true] at hv
    simp only [Value.complete] at hc
    refine ⟨be.bytes, p.Pack H, ae.bytes, ?_, hv.1.1, Payload_GValue L H p hv.2 hc, hv.1.2⟩
    rw [Value_Pack_eq]; simp
theorem Payload_GValue (L : Lexicon) (H : Helpers) :
    ∀ p : Payload, p.validFragments L = true → p.complete = true → GValue L (p.Pack H)
  | .none, _, hc => by simp [Payload.complete] at hc
  | .Literal lit, hv, _ => by
    simp only [Payload.validFragments] at hv
    have : (Payload.Literal lit).Pack H = lit := by
      simp [Payload.Pack, Payload.append, appendLiteral]
    rw [this]
    exact GValue.literal hv
  | .Object ms ae, hv, hc => by
    simp only [Payload.validFragments, Bool.and_eq_true] at hv
    simp only [Payload.complete] at hc
    have hm := members_GMember L H ms hv.1 hc
    rw [Payload_Pack_Object]
    apply GValue.object
    cases ms with
    | nil =>
      have := @GObject.empty L _ hv.2
      simpa [commaTerminated] using this
    | cons m ms =>
      have hg := GMembers_commaTerminated L (H.hasTrailingComma (.Object (m :: ms) ae))
        (m.Pack H) (ms.map (fun m => m.Pack H)) (by
          intro y hy
          rw [← List.map_cons (fun m => ObjectMember.Pack H m), List.mem_map] at hy
          obtain ⟨m', hm', rfl⟩ := hy
          exact hm m' hm')
      have := GObject.members hg hv.2
      simpa using this
  | .Array es ae, hv, hc => by
    simp only [Payload.validFragments, Bool.and_eq_true] at hv
    simp only [Payload.complete] at hc
    have hm := elements_GElement L H es hv.1 hc
    rw [Payload_Pack_Array]
    apply GValue.array
    cases es with
    | nil =>
      have := @GArray.empty L _ hv.2
      simpa [commaTerminated] using this
    | cons x xs =>
      have hg := GElements_commaTerminated L (H.hasTrailingComma (.Array (x :: xs) ae))
        (x.Pack H) (xs.map (fun e => e.Pack H)) (by
          intro y hy
          rw [← List.map_cons (fun e => Value.Pack H e), List.mem_map] at hy
          obtain ⟨e', he', rfl⟩ := hy
          exact hm e' he')
      have := GArray.elements hg hv.2
      simpa using this
theorem members_GMember (L : Lexicon) (H : Helpers) :
    ∀ ms : List ObjectMember, membersValidFragments L ms = true → membersComplete ms = true →
      ∀ m ∈ ms, GMember L (m.Pack H)
  | [], _, _ => by simp
  | .mk name value :: ms, hv, hc => by
    simp only [membersValidFragments, Bool.and_eq_true] at hv
    simp only [membersComplete, Bool.and_eq_true] at hc
    intro m hm
    rcases List.mem_cons.mp hm with rfl | hm
    · obtain ⟨a, v, b, hP, ha, hgv, hb⟩ := Value_GElement L H value hv.1.2 hc.1.2
      cases name with
      | mk nbe ns np ne nae =>
        cases np with
        | Literal k =>
          simp only [Value.validNameFragments, Payload.validNameFragments,
            Bool.and_eq_true] at hv
          have := GMember.mk hv.1.1.1.1 hv.1.1.2 hv.1.1.1.2 ha hgv hb
          have e : (ObjectMember.mk (Value.mk nbe ns (.Literal k) ne nae) value).Pack H
              = nbe.bytes ++ k ++ nae.bytes ++ [colon] ++ a ++ v ++ b := by
            simp only [ObjectMember.Pack, ObjectMember.Name, ObjectMember.Value, hP]
            rw [Value_Pack_eq]
            simp [Payload.Pack, Payload.append, appendLiteral]
          rw [e]
          exact this
        | none => simp [Value.payload, Payload.isLiteral] at hc
        | Object _ _ => simp [Value.payload, Payload.isLiteral] at hc
        | Array _ _ => simp [Value.payload, Payload.isLiteral] at hc
    · exact members_GMember L H ms hv.2 hc.2 m hm
theorem elements_GElement (L : Lexicon) (H : Helpers) :
    ∀ es : List Value, elementsValidFragments L es = true → elementsComplete es = true →
      ∀ e ∈ es, GElement L (e.Pack H)
  | [], _, _ => by simp
  | x :: xs, hv, hc => by
    simp only [elementsValidFragments, Bool.and_eq_true] at hv
    simp only [elementsComplete, Bool.and_eq_true] at hc
    intro e he
    rcases List.mem_cons.mp he with rfl | he
    · exact Value_GElement L H e hv.1 hc.1
    · exact elements_GElement L H xs hv.2 hc.2 e he
end

theorem GValue_ne_nil (L : Lexicon) {s : Bytes} (h : GValue L s) : s ≠ [] := by
  cases h with
  | literal hl =>
    intro hs
    subst hs
    have := L.value_ne_nil
    simp [Lexicon.isValueLiteral, this.1, this.2.1, this.2.2] at hl
  | object ho => cases ho <;> simp
  | array ha => cases ha <;> simp

theorem not_Document_nil (L : Lexicon) : ¬ Document L [] := by
  intro h
  generalize hs : ([] : Bytes) = s at h
  cases h with
  | mk ha hv hb =>
    have := GValue_ne_nil L hv
    simp at hs
    exact this hs.2.1


theorem GValue_literal_or_long (L : Lexicon) {s : Bytes} (h : GValue L s) :
    L.isValueLiteral s = true ∨ 2 ≤ s.length := by
  cases h with
  | literal hl => exact Or.inl hl
  | object ho => cases ho <;> (right; simp <;> omega)
  | array ha => cases ha <;> (right; simp <;> omega)

theorem not_Document_space : ¬ Document tableLexicon (str " ") := by
  intro h
  generalize hs : str " " = s at h
  cases h with
  | @mk a v b ha hv hb =>
    have hne := GValue_ne_nil tableLexicon hv
    have hlen : (a ++ v ++ b).length = 1 := by rw [← hs]; rfl
    simp only [List.length_append] at hlen
    have hvpos : 0 < v.length := List.length_pos.mpr hne
    have ha0 : a = [] := List.length_eq_zero.mp (by omega)
    have hb0 : b = [] := List.length_eq_zero.mp (by omega)
    subst ha0 hb0
    simp only [List.nil_append, List.append_nil] at hs
    subst hs
    rcases GValue_literal_or_long tableLexicon hv with h1 | h2
    · revert h1; decide
    · revert h2; decide

/-- C9 fails on the code: the zero `Value` and the partial tree returned for a space
followed by the byte `0xff` have no payload, so every `Extra` and every `Literal`
in them is valid; `Pack` writes their extras alone, the empty text and a single
space, and neither is derivable from `Document`. -/
theorem Pack_no_payload_not_document :
    ((Value.mk .null 0 .none 0 .null).validFragments tableLexicon = true ∧
        (Value.mk .null 0 .none 0 .null).Pack tableHelpers = [] ∧
        ¬ Document tableLexicon ((Value.mk .null 0 .none 0 .null).Pack tableHelpers)) ∧
      (treePartial.validFragments tableLexicon = true ∧
        treePartial.Pack tableHelpers = str " " ∧
        ¬ Document tableLexicon (treePartial.Pack tableHelpers)) :=
  ⟨⟨by decide, by decide, not_Document_nil tableLexicon⟩,
    ⟨by decide, by decide, not_Document_space⟩⟩

/-- The validity of every `Extra` and `Literal` does not make the packed text a
document for every lexicon, helper and tree: the value with no payload and no
extras packs to the empty text. -/
theorem Pack_not_always_document :
    ¬ ∀ (L : Lexicon) (H : Helpers) (v : Value),
        v.validFragments L = true → Document L (v.Pack H) := by
  intro h
  exact not_Document_nil tableLexicon
    (h tableLexicon tableHelpers (.mk .null 0 .none 0 .null) (by decide))

/-- What `Pack` does deliver: for every tree in which every node has a payload, the
name of every member is a `Literal`, every `Extra` is a valid extra and every
`Literal` is a valid literal for its position, `v.Pack()` is derivable from
`Document`. -/
theorem Pack_is_document (L : Lexicon) (H : Helpers) (v : Value)
    (hv : v.validFragments L = true) (hc : v.complete = true) :
    Document L (v.Pack H) := by
  obtain ⟨a, t, b, hP, ha, ht, hb⟩ := Value_GElement L H v hv hc
  rw [hP]
  exact Document.mk ha ht hb

/-- The packed text of the tree for ` [ "s" , ] ` is a document. -/
theorem Pack_is_document_witness :
    treeArrayTrailing.validFragments tableLexicon = true ∧
      treeArrayTrailing.complete = true ∧
      Document tableLexicon (treeArrayTrailing.Pack tableHelpers) :=
  ⟨by decide, by decide,
    Pack_is_document tableLexicon tableHelpers treeArrayTrailing (by decide) (by decide)⟩

/-! ## Parsed trees: round trip and fresh offsets (C2, C10) -/

theorem Payload_updateOffsets_Object (H : Helpers) (ms : List ObjectMember) (ae : Extra)
    (n k : Int) (hm : 0 < ms.length) (hu : updateMembers H ms (n + 1) = (ms, k)) :
    Payload.updateOffsets H (.Object ms ae) n
      = (.Object ms ae,
          (if H.hasTrailingComma (.Object ms ae) then k else k - 1) + ae.bytes.length + 1) := by
  simp only [Payload.updateOffsets, hu, Payload.length]
  cases H.hasTrailingComma (.Object ms ae) <;> simp [hm]

theorem Payload_updateOffsets_Array (H : Helpers) (es : List Value) (ae : Extra)
    (n k : Int) (hm : 0 < es.length) (hu : updateElements H es (n + 1) = (es, k)) :
    Payload.updateOffsets H (.Array es ae) n
      = (.Array es ae,
          (if H.hasTrailingComma (.Array es ae) then k else k - 1) + ae.bytes.length + 1) := by
  simp only [Payload.updateOffsets, hu, Payload.length]
  cases H.hasTrailingComma (.Array es ae) <;> simp [hm]

mutual
theorem ParsesPayload_sound (L : Lexicon) (H : Helpers) :
    ∀ {n : Int} {s : Bytes} {p : Payload}, ParsesPayload L H n s p →
      p.Pack H = s ∧ p.updateOffsets H n = (p, n + s.length)
  | _, _, _, .literal n hl => by
    simp [Payload.Pack, Payload.append, appendLiteral, Payload.updateOffsets]
  | _, _, _, .emptyObject n hx => by
    rw [Payload_Pack_Object_raw]
    simp [Payload.updateOffsets, updateMembers, appendMembers, Payload.length]
    omega
  | _, _, _, @ParsesPayload.object _ _ n s ms ae hm hx ht => by
    obtain ⟨hP, hU, hlen⟩ := ParsesMembers_sound L H hm
    rw [Payload_Pack_Object_raw, Payload_updateOffsets_Object H ms ae n _ hlen hU, hP, ht]
    simp [hlen]
    omega
  | _, _, _, @ParsesPayload.objectComma _ _ n s ms ae hm hx ht => by
    obtain ⟨hP, hU, hlen⟩ := ParsesMembers_sound L H hm
    rw [Payload_Pack_Object_raw, Payload_updateOffsets_Object H ms ae n _ hlen hU, hP, ht]
    simp [hlen]
    omega
  | _, _, _, .emptyArray n hx => by
    rw [Payload_Pack_Array_raw]
    simp [Payload.updateOffsets, updateElements, appendElements, Payload.length]
    omega
  | _, _, _, @ParsesPayload.array _ _ n s es ae hm hx ht => by
    obtain ⟨hP, hU, hlen⟩ := ParsesElements_sound L H hm
    rw [Payload_Pack_Array_raw, Payload_updateOffsets_Array H es ae n _ hlen hU, hP, ht]
    simp [hlen]
    omega
  | _, _, _, @ParsesPayload.arrayComma _ _ n s es ae hm hx ht => by
    obtain ⟨hP, hU, hlen⟩ := ParsesElements_sound L H hm
    rw [Payload_Pack_Array_raw, Payload_updateOffsets_Array H es ae n _ hlen hU, hP, ht]
    simp [hlen]
    omega
theorem ParsesValue_sound (L : Lexicon) (H : Helpers) :
    ∀ {n : Int} {s : Bytes} {v : Value}, ParsesValue L H n s v →
      v.Pack H = s ∧ v.updateOffsets H n = (v, n + s.length)
  | _, _, _, @ParsesValue.mk _ _ n be ae t p hb hp ha => by
    obtain ⟨hP, hU⟩ := ParsesPayload_sound L H hp
    rw [Value_Pack_eq, hP]
    simp only [Value.updateOffsets, hU]
    simp
    omega
theorem ParsesMembers_sound (L : Lexicon) (H : Helpers) :
    ∀ {n : Int} {s : Bytes} {ms : List ObjectMember}, ParsesMembers L H n s ms →
      appendMembers H ms [] false = s ++ [comma] ∧
        updateMembers H ms n = (ms, n + s.length + 1) ∧ 0 < ms.length
  | _, _, _, @ParsesMembers.last _ _ n be ae k v value hb hk ha hv => by
    obtain ⟨hP, hU⟩ := ParsesValue_sound L H hv
    have hN : Value.updateOffsets H
        (.mk be (n + be.bytes.length) (.Literal k) (n + be.bytes.length + k.length) ae) n
        = (.mk be (n + be.bytes.length) (.Literal k) (n + be.bytes.length + k.length) ae,
            n + be.bytes.length + k.length + ae.bytes.length) := by
      simp [Value.updateOffsets, Payload.updateOffsets]
    refine ⟨?_, ?_, by simp⟩
    · simp only [appendMembers]
      rw [Value_append_eq H value]
      have : Value.append H value [] false = v := hP
      rw [this, Value_append_nil]
      simp [Payload.append, appendLiteral]
    · simp only [updateMembers, hN, hU]
      simp
      omega
  | _, _, _, @ParsesMembers.cons _ _ n be ae k v s value ms hb hk ha hv hm => by
    obtain ⟨hP, hU⟩ := ParsesValue_sound L H hv
    obtain ⟨hP2, hU2, -⟩ := ParsesMembers_sound L H hm
    have hN : Value.updateOffsets H
        (.mk be (n + be.bytes.length) (.Literal k) (n + be.bytes.length + k.length) ae) n
        = (.mk be (n + be.bytes.length) (.Literal k) (n + be.bytes.length + k.length) ae,
            n + be.bytes.length + k.length + ae.bytes.length) := by
      simp [Value.updateOffsets, Payload.updateOffsets]
    refine ⟨?_, ?_, by simp⟩
    · simp only [appendMembers]
      rw [appendMembers_eq, hP2, Value_append_eq H value]
      have : Value.append H value [] false = v := hP
      rw [this, Value_append_nil]
      simp [Payload.append, appendLiteral]
    · simp only [updateMembers, hN, hU, hU2]
      simp
      omega
theorem ParsesElements_sound (L : Lexicon) (H : Helpers) :
    ∀ {n : Int} {s : Bytes} {es : List Value}, ParsesElements L H n s es →
      appendElements H es [] false = s ++ [comma] ∧
        updateElements H es n = (es, n + s.length + 1) ∧ 0 < es.length
  | _, _, _, @ParsesElements.last _ _ n v e hv => by
    obtain ⟨hP, hU⟩ := ParsesValue_sound L H hv
    have : Value.append H e [] false = v := hP
    refine ⟨by simp [appendElements, this], by simp [updateElements, hU], by simp⟩
  | _, _, _, @ParsesElements.cons _ _ n v s e es hv hm => by
    obtain ⟨hP, hU⟩ := ParsesValue_sound L H hv
    obtain ⟨hP2, hU2, -⟩ := ParsesElements_sound L H hm
    have : Value.append H e [] false = v := hP
    refine ⟨?_, ?_, by simp⟩
    · simp only [appendElements]
      rw [appendElements_eq, hP2, this]
      simp
    · simp only [updateElements, hU, hU2]
      simp
      omega
end

/-- The derivation for ` [ "s" , ] ` (json_test.go 208-221). -/
theorem Parses_treeArrayTrailing :
    Parses tableLexicon tableHelpers (str " [ \"s\" , ] ") treeArrayTrailing :=
  @ParsesValue.mk tableLexicon tableHelpers 0 (.buf (str " ")) (.buf (str " "))
    (str "[ \"s\" , ]") (.Array [nodeS] (.buf (str " ")))
    (by decide)
    (@ParsesPayload.arrayComma tableLexicon tableHelpers 1 (str " \"s\" ") [nodeS]
      (.buf (str " "))
      (ParsesElements.last 2
        (@ParsesValue.mk tableLexicon tableHelpers 2 (.buf (str " ")) (.buf (str " "))
          (str "\"s\"") (.Literal (str "\"s\""))
          (by decide) (ParsesPayload.literal 3 (by decide)) (by decide)))
      (by decide) (by decide))
    (by decide)

/-- The derivation for the object with one member (json_test.go 140-156). -/
theorem Parses_treeObject :
    Parses tableLexicon tableHelpers (str " \x7b\"k\" : \"v\" \x7d ") treeObject :=
  @ParsesValue.mk tableLexicon tableHelpers 0 (.buf (str " ")) (.buf (str " "))
    (str "\x7b\"k\" : \"v\" \x7d")
    (.Object [.mk (.mk .null 2 (.Literal (str "\"k\"")) 5 (.buf (str " ")))
                  (.mk (.buf (str " ")) 8 (.Literal (str "\"v\"")) 11 .null)]
      (.buf (str " ")))
    (by decide)
    (@ParsesPayload.object tableLexicon tableHelpers 1 (str "\"k\" : \"v\"") _
      (.buf (str " "))
      (@ParsesMembers.last tableLexicon tableHelpers 2 .null (.buf (str " ")) (str "\"k\"")
        (str " \"v\"") _
        (by decide) (by decide) (by decide)
        (@ParsesValue.mk tableLexicon tableHelpers 7 (.buf (str " ")) .null
          (str "\"v\"") (.Literal (str "\"v\""))
          (by decide) (ParsesPayload.literal 8 (by decide)) (by decide)))
      (by decide) (by decide))
    (by decide)

/-- The derivation for the nested objects with unquoted keys (json_test.go 367-418). -/
theorem Parses_treePos :
    Parses tableLexicon tableHelpers (str "\x7bpos: \x7bx: 1, y: 2\x7d\x7d") treePos :=
  @ParsesValue.mk tableLexicon tableHelpers 0 .null .null
    (str "\x7bpos: \x7bx: 1, y: 2\x7d\x7d") _
    (by decide)
    (@ParsesPayload.object tableLexicon tableHelpers 0 (str "pos: \x7bx: 1, y: 2\x7d") _ .null
      (@ParsesMembers.last tableLexicon tableHelpers 1 .null .null (str "pos")
        (str " \x7bx: 1, y: 2\x7d") _
        (by decide) (by decide) (by decide)
        (@ParsesValue.mk tableLexicon tableHelpers 5 (.buf (str " ")) .null
          (str "\x7bx: 1, y: 2\x7d") _
          (by decide)
          (@ParsesPayload.object tableLexicon tableHelpers 6 (str "x: 1, y: 2") _ .null
            (@ParsesMembers.cons tableLexicon tableHelpers 7 .null .null (str "x") (str " 1")
              (str " y: 2") _ _
              (by decide) (by decide) (by decide)
              (@ParsesValue.mk tableLexicon tableHelpers 9 (.buf (str " ")) .null
                (str "1") _ (by decide) (ParsesPayload.literal 10 (by decide)) (by decide))
              (@ParsesMembers.last tableLexicon tableHelpers 12 (.buf (str " ")) .null
                (str "y") (str " 2") _
                (by decide) (by decide) (by decide)
                (@ParsesValue.mk tableLexicon tableHelpers 15 (.buf (str " ")) .null
                  (str "2") _ (by decide) (ParsesPayload.literal 16 (by decide))
                  (by decide))))
            (by decide) (by decide))
          (by decide)))
      (by decide) (by decide))
    (by decide)

set_option maxRecDepth 100000 in
/-- The derivation for the nested-comment array (json_test.go 222-243). -/
theorem Parses_treeComments : Parses tableLexicon tableHelpers textComments treeComments :=
  @ParsesValue.mk tableLexicon tableHelpers 0 cmt cmt
    (str "[ /**/ null /**/ , /**/ false /**/ , /**/ true /**/ , /**/ \"string\" /**/ , /**/ 0 /**/ , /**/ \x7b\x7d /**/ , /**/ [] /**/ ]") _
    (by decide)
    (@ParsesPayload.array tableLexicon tableHelpers 6
      (str " /**/ null /**/ , /**/ false /**/ , /**/ true /**/ , /**/ \"string\" /**/ , /**/ 0 /**/ , /**/ \x7b\x7d /**/ , /**/ []") _ cmt
    (@ParsesElements.cons tableLexicon tableHelpers 7 (str " /**/ null /**/ ")
    (str " /**/ false /**/ , /**/ true /**/ , /**/ \"string\" /**/ , /**/ 0 /**/ , /**/ \x7b\x7d /**/ , /**/ []") _ _
    (@ParsesValue.mk tableLexicon tableHelpers 7 cmt cmt (str "null") _
      (by decide) (ParsesPayload.literal 13 (by decide)) (by decide))
    (@ParsesElements.cons tableLexicon tableHelpers 24 (str " /**/ false /**/ ")
    (str " /**/ true /**/ , /**/ \"string\" /**/ , /**/ 0 /**/ , /**/ \x7b\x7d /**/ , /**/ []") _ _
    (@ParsesValue.mk tableLexicon tableHelpers 24 cmt cmt (str "false") _
      (by decide) (ParsesPayload.literal 30 (by decide)) (by decide))
    (@ParsesElements.cons tableLexicon tableHelpers 42 (str " /**/ true /**/ ")
    (str " /**/ \"string\" /**/ , /**/ 0 /**/ , /**/ \x7b\x7d /**/ , /**/ []") _ _
    (@ParsesValue.mk tableLexicon tableHelpers 42 cmt cmt (str "true") _
      (by decide) (ParsesPayload.literal 48 (by decide)) (by decide))
    (@ParsesElements.cons tableLexicon tableHelpers 59 (str " /**/ \"string\" /**/ ")
    (str " /**/ 0 /**/ , /**/ \x7b\x7d /**/ , /**/ []") _ _
    (@ParsesValue.mk tableLexicon tableHelpers 59 cmt cmt (str "\"string\"") _
      (by decide) (ParsesPayload.literal 65 (by decide)) (by decide))
    (@ParsesElements.cons tableLexicon tableHelpers 80 (str " /**/ 0 /**/ ")
    (str " /**/ \x7b\x7d /**/ , /**/ []") _ _
    (@ParsesValue.mk tableLexicon tableHelpers 80 cmt cmt (str "0") _
      (by decide) (ParsesPayload.literal 86 (by decide)) (by decide))
    (@ParsesElements.cons tableLexicon tableHelpers 94 (str " /**/ \x7b\x7d /**/ ")
    (str " /**/ []") _ _
    (@ParsesValue.mk tableLexicon tableHelpers 94 cmt cmt (str "\x7b\x7d") _
      (by decide) (@ParsesPayload.emptyObject tableLexicon tableHelpers 100 .null (by decide)) (by decide))
    (@ParsesElements.last tableLexicon tableHelpers 109 (str " /**/ []") _
    (@ParsesValue.mk tableLexicon tableHelpers 109 cmt .null (str "[]") _
      (by decide) (@ParsesPayload.emptyArray tableLexicon tableHelpers 115 .null (by decide)) (by decide)))))))))
      (by decide) (by decide))
    (by decide)

/-- C2: for every input `s` that `Parse` accepts without error, with `v` the tree it
returns, `v.Pack()` is byte-for-byte equal to `s`. -/
theorem Pack_Parse_roundtrip (L : Lexicon) (H : Helpers) (s : Bytes) (v : Value)
    (h : Parses L H s v) : v.Pack H = s :=
  (ParsesValue_sound L H h).1

/-- C2 on the nested-comment array. -/
theorem Pack_Parse_roundtrip_witness :
    Parses tableLexicon tableHelpers textComments treeComments ∧
      treeComments.Pack tableHelpers = textComments :=
  ⟨Parses_treeComments,
    Pack_Parse_roundtrip tableLexicon tableHelpers _ _ Parses_treeComments⟩

set_option maxRecDepth 100000 in
/-- `Pack` of each expected tree of the test table is the input of its entry. -/
theorem Pack_table_trees :
    treeNull.Pack tableHelpers = str " null " ∧
      treeObject.Pack tableHelpers = str " \x7b\"k\" : \"v\" \x7d " ∧
      treeObjectTrailing.Pack tableHelpers = str " \x7b \"k\" : \"v\", \x7d " ∧
      treeArray.Pack tableHelpers = str " [ \"s\" ] " ∧
      treeArrayTrailing.Pack tableHelpers = str " [ \"s\" , ] " ∧
      treeComments.Pack tableHelpers = textComments ∧
      treePos.Pack tableHelpers = str "\x7bpos: \x7bx: 1, y: 2\x7d\x7d" := by
  decide

/-- C10: for every input that `Parse` accepts without error, `UpdateOffsets` leaves
the returned tree as it is: every `StartOffset` and `EndOffset` already has the value
`UpdateOffsets` computes, and no other field changes. -/
theorem UpdateOffsets_Parse_fixed (L : Lexicon) (H : Helpers) (s : Bytes) (v : Value)
    (h : Parses L H s v) : v.UpdateOffsets H = v := by
  rw [Value.UpdateOffsets, (ParsesValue_sound L H h).2]

/-- C10 on the nested objects with unquoted keys. -/
theorem UpdateOffsets_Parse_fixed_witness :
    Parses tableLexicon tableHelpers (str "\x7bpos: \x7bx: 1, y: 2\x7d\x7d") treePos ∧
      treePos.UpdateOffsets tableHelpers = treePos :=
  ⟨Parses_treePos,
    UpdateOffsets_Parse_fixed tableLexicon tableHelpers _ _ Parses_treePos⟩

/-- `UpdateOffsets` leaves each expected tree of the test table as it is. -/
theorem UpdateOffsets_table_trees :
    treeNull.UpdateOffsets tableHelpers = treeNull ∧
      treeObject.UpdateOffsets tableHelpers = treeObject ∧
      treeObjectTrailing.UpdateOffsets tableHelpers = treeObjectTrailing ∧
      treeArray.UpdateOffsets tableHelpers = treeArray ∧
      treeArrayTrailing.UpdateOffsets tableHelpers = treeArrayTrailing ∧
      treeComments.UpdateOffsets tableHelpers = treeComments ∧
      treePos.UpdateOffsets tableHelpers = treePos :=
  ⟨rfl, rfl, rfl, rfl, rfl, rfl, rfl⟩

/-! ## `String` (C11) -/

theorem appendLiteral_noKeys (H : Helpers) (lit : Literal) (b : Bytes) :
    appendLiteral H lit b false = appendLiteral H.noKeys lit b false := by
  simp [appendLiteral]

mutual
theorem Value_append_noKeys (H : Helpers) :
    ∀ (v : Value) (b : Bytes), v.append H b false = v.append H.noKeys b false
  | .mk be _ v2 _ ae, b => by
    simp only [Value.append]
    rw [Payload_append_noKeys H v2]
theorem Payload_append_noKeys (H : Helpers) :
    ∀ (p : Payload) (b : Bytes), p.append H b false = p.append H.noKeys b false
  | .none, b => by simp [Payload.append]
  | .Literal lit, b => by
    simp only [Payload.append]
    exact appendLiteral_noKeys H lit b
  | .Object ms ae, b => by
    simp only [Payload.append]
    rw [appendMembers_noKeys H ms]
    rfl
  | .Array es ae, b => by
    simp only [Payload.append]
    rw [appendElements_noKeys H es]
    rfl
theorem appendMembers_noKeys (H : Helpers) :
    ∀ (ms : List ObjectMember) (b : Bytes),
      appendMembers H ms b false = appendMembers H.noKeys ms b false
  | [], b => by simp [appendMembers]
  | .mk name value :: ms, b => by
    simp only [appendMembers]
    rw [Value_append_noKeys H name, Value_append_noKeys H value, appendMembers_noKeys H ms]
theorem appendElements_noKeys (H : Helpers) :
    ∀ (es : List Value) (b : Bytes),
      appendElements H es b false = appendElements H.noKeys es b false
  | [], b => by simp [appendElements]
  | e :: es, b => by
    simp only [appendElements]
    rw [Value_append_noKeys H e, appendElements_noKeys H es]
end

/-- C11: `v.String()` is byte for byte `v.Pack()`, and it never quotes an unquoted
key: it is what `String` yields when `isUnquotedKey` holds of no literal, and a
literal node is written as its extras around the literal's own bytes. -/
theorem String_eq_Pack (H : Helpers) (v : Value) :
    v.String H = v.Pack H ∧
      v.String H = v.String H.noKeys ∧
      ∀ (be : Extra) (s : Int) (lit : Literal) (e : Int) (ae : Extra),
        (Value.mk be s (.Literal lit) e ae).String H = be.bytes ++ lit ++ ae.bytes := by
  refine ⟨rfl, Value_append_noKeys H v [], ?_⟩
  intro be s lit e ae
  rw [Value.String, Value_append_nil]
  simp [Payload.append, appendLiteral]

/-! ## The frame of `UpdateOffsets` (C12) -/

mutual
theorem Value_updateOffsets_erase (H : Helpers) :
    ∀ (v : Value) (n : Int), (v.updateOffsets H n).1.eraseOffsets = v.eraseOffsets
  | .mk be s p e ae, n => by
    simp only [Value.updateOffsets, Value.eraseOffsets]
    rw [Payload_updateOffsets_erase H p]
theorem Payload_updateOffsets_erase (H : Helpers) :
    ∀ (p : Payload) (n : Int), (p.updateOffsets H n).1.eraseOffsets = p.eraseOffsets
  | .none, n => by simp [Payload.updateOffsets]
  | .Literal lit, n => by simp [Payload.updateOffsets]
  | .Object ms ae, n => by
    simp only [Payload.updateOffsets, Payload.eraseOffsets]
    rw [updateMembers_erase H ms]
  | .Array es ae, n => by
    simp only [Payload.updateOffsets, Payload.eraseOffsets]
    rw [updateElements_erase H es]
theorem updateMembers_erase (H : Helpers) :
    ∀ (ms : List ObjectMember) (n : Int),
      eraseMembers (updateMembers H ms n).1 = eraseMembers ms
  | [], n => by simp [updateMembers]
  | .mk name value :: ms, n => by
    simp only [updateMembers, eraseMembers]
    rw [Value_updateOffsets_erase H name, Value_updateOffsets_erase H value,
      updateMembers_erase H ms]
theorem updateElements_erase (H : Helpers) :
    ∀ (es : List Value) (n : Int), eraseElements (updateElements H es n).1 = eraseElements es
  | [], n => by simp [updateElements]
  | e :: es, n => by
    simp only [updateElements, eraseElements]
    rw [Value_updateOffsets_erase H e, updateElements_erase H es]
end

theorem eraseMembers_length : ∀ ms : List ObjectMember, (eraseMembers ms).length = ms.length
  | [] => rfl
  | .mk _ _ :: ms => by simp [eraseMembers, eraseMembers_length ms]

theorem eraseElements_length : ∀ es : List Value, (eraseElements es).length = es.length
  | [] => rfl
  | _ :: es => by simp [eraseElements, eraseElements_length es]

mutual
theorem Value_append_erase (H : Helpers) (hH : H.ignoresOffsets) :
    ∀ (v : Value) (b : Bytes) (q : Bool), v.eraseOffsets.append H b q = v.append H b q
  | .mk be s p e ae, b, q => by
    simp only [Value.append, Value.eraseOffsets]
    rw [Payload_append_erase H hH p]
theorem Payload_append_erase (H : Helpers) (hH : H.ignoresOffsets) :
    ∀ (p : Payload) (b : Bytes) (q : Bool), p.eraseOffsets.append H b q = p.append H b q
  | .none, b, q => by simp [Payload.eraseOffsets]
  | .Literal lit, b, q => by simp [Payload.eraseOffsets]
  | .Object ms ae, b, q => by
    have h := hH (.Object ms ae)
    simp only [Payload.eraseOffsets] at h
    simp only [Payload.append, Payload.eraseOffsets, Payload.length]
    rw [appendMembers_erase H hH ms, h]
    simp only [eraseMembers_length]
  | .Array es ae, b, q => by
    have h := hH (.Array es ae)
    simp only [Payload.eraseOffsets] at h
    simp only [Payload.append, Payload.eraseOffsets, Payload.length]
    rw [appendElements_erase H hH es, h]
    simp only [eraseElements_length]
theorem appendMembers_erase (H : Helpers) (hH : H.ignoresOffsets) :
    ∀ (ms : List ObjectMember) (b : Bytes) (q : Bool),
      appendMembers H (eraseMembers ms) b q = appendMembers H ms b q
  | [], b, q => by simp [eraseMembers]
  | .mk name value :: ms, b, q => by
    simp only [appendMembers, eraseMembers]
    rw [Value_append_erase H hH name, Value_append_erase H hH value,
      appendMembers_erase H hH ms]
theorem appendElements_erase (H : Helpers) (hH : H.ignoresOffsets) :
    ∀ (es : List Value) (b : Bytes) (q : Bool),
      appendElements H (eraseElements es) b q = appendElements H es b q
  | [], b, q => by simp [eraseElements]
  | e :: es, b, q => by
    simp only [appendElements, eraseElements]
    rw [Value_append_erase H hH e, appendElements_erase H hH es]
end

theorem append_updateOffsets (H : Helpers) (hH : H.ignoresOffsets) (v : Value) (n : Int)
    (b : Bytes) (q : Bool) :
    (v.updateOffsets H n).1.append H b q = v.append H b q := by
  rw [← Value_append_erase H hH (v.updateOffsets H n).1, Value_updateOffsets_erase,
    Value_append_erase H hH]

theorem eraseElements_eq_map :
    ∀ es : List Value, eraseElements es = es.map Value.eraseOffsets
  | [] => rfl
  | e :: es => by simp [eraseElements, eraseElements_eq_map es]

theorem eraseMembers_eq_map :
    ∀ ms : List ObjectMember, eraseMembers ms
      = ms.map (fun m => .mk m.Name.eraseOffsets m.Value.eraseOffsets)
  | [] => rfl
  | .mk name value :: ms => by
    simp [eraseMembers, eraseMembers_eq_map ms, ObjectMember.Name, ObjectMember.Value]

theorem Value_eraseOffsets_AfterExtra (v : Value) :
    v.eraseOffsets.AfterExtra = v.AfterExtra := by
  cases v; rfl

theorem tableHelpers_ignoresOffsets : tableHelpers.ignoresOffsets := by
  intro p
  cases p with
  | none => rfl
  | Literal lit => rfl
  | Object ms ae =>
    simp only [Payload.eraseOffsets, tableHelpers, Payload.lastValue, eraseMembers_eq_map,
      List.getLast?_map, Option.map_map]
    cases ms.getLast? with
    | none => rfl
    | some m => simp [ObjectMember.Value, Value_eraseOffsets_AfterExtra]
  | Array es ae =>
    simp only [Payload.eraseOffsets, tableHelpers, Payload.lastValue, eraseElements_eq_map,
      List.getLast?_map]
    cases es.getLast? with
    | none => rfl
    | some m => simp [Value_eraseOffsets_AfterExtra]

/-- C12: `UpdateOffsets` changes only `StartOffset` and `EndOffset` fields: with the
offsets set aside the tree is the same before and after, so every `BeforeExtra`,
`AfterExtra` and `Literal` and the members and elements in their order are kept;
therefore, `hasTrailingComma` not reading offsets, `Pack` and `PackWithQuotedKeys`
return the same bytes before and after. -/
theorem UpdateOffsets_frame (H : Helpers) (v : Value) :
    (v.UpdateOffsets H).eraseOffsets = v.eraseOffsets ∧
      (H.ignoresOffsets →
        (v.UpdateOffsets H).Pack H = v.Pack H ∧
          (v.UpdateOffsets H).PackWithQuotedKeys H = v.PackWithQuotedKeys H) := by
  refine ⟨Value_updateOffsets_erase H v 0, fun hH => ⟨?_, ?_⟩⟩
  · exact append_updateOffsets H hH v 0 [] false
  · exact append_updateOffsets H hH v 0 [] true

/-- C12 on the nested-comment fixture with its offsets set to zero. -/
theorem UpdateOffsets_frame_witness :
    tableHelpers.ignoresOffsets ∧
      ((treeComments.eraseOffsets.UpdateOffsets tableHelpers).eraseOffsets
          = treeComments.eraseOffsets.eraseOffsets ∧
        (treeComments.eraseOffsets.UpdateOffsets tableHelpers).Pack tableHelpers
          = treeComments.eraseOffsets.Pack tableHelpers ∧
        (treeComments.eraseOffsets.UpdateOffsets tableHelpers).PackWithQuotedKeys tableHelpers
          = treeComments.eraseOffsets.PackWithQuotedKeys tableHelpers) :=
  ⟨tableHelpers_ignoresOffsets,
    (UpdateOffsets_frame tableHelpers treeComments.eraseOffsets).1,
    (UpdateOffsets_frame tableHelpers treeComments.eraseOffsets).2
      tableHelpers_ignoresOffsets⟩

/-! ## The offsets of the root and of a node without payload (C13, C14) -/

theorem Value_updateOffsets_fields (H : Helpers) (be : Extra) (s : Int) (p : Payload)
    (e : Int) (ae : Extra) (n : Int) :
    (Value.mk be s p e ae).updateOffsets H n
      = (.mk be (n + be.bytes.length) (p.updateOffsets H (n + be.bytes.length)).1
            (n + be.bytes.length
              + ((p.updateOffsets H (n + be.bytes.length)).1.Pack H).length) ae,
          n + be.bytes.length
            + ((p.updateOffsets H (n + be.bytes.length)).1.Pack H).length
            + ae.bytes.length) := by
  simp only [Value.updateOffsets]
  rw [(Payload_updateOffsets_spec H p (n + be.bytes.length)).1]

/-- C13: after `root.UpdateOffsets()`, `root.StartOffset` is the length of
`root.BeforeExtra` and `root.EndOffset` is the length of `root.Pack()` less the length
of `root.AfterExtra`, the extras being those the root had before the call; the tree
for ` null ` gets `StartOffset` 1 and `EndOffset` 5. -/
theorem UpdateOffsets_root_offsets (H : Helpers) (root : Value) :
    (root.UpdateOffsets H).BeforeExtra = root.BeforeExtra ∧
      (root.UpdateOffsets H).AfterExtra = root.AfterExtra ∧
      (root.UpdateOffsets H).StartOffset = root.BeforeExtra.bytes.length ∧
      (root.UpdateOffsets H).EndOffset
        = (((root.UpdateOffsets H).Pack H).length : Int) - root.AfterExtra.bytes.length ∧
      ((treeNull.eraseOffsets.UpdateOffsets H).StartOffset = 1 ∧
        (treeNull.eraseOffsets.UpdateOffsets H).EndOffset = 5) := by
  refine ⟨?_, ?_, ?_, ?_, ⟨rfl, rfl⟩⟩
  all_goals cases root with
    | mk be s p e ae =>
      rw [Value.UpdateOffsets, Value_updateOffsets_fields]
      simp [Value.BeforeExtra, Value.AfterExtra, Value.StartOffset, Value.EndOffset,
        Value_Pack_eq]
      try omega

/-- C14: a `Value` with no payload packs to `BeforeExtra` followed by `AfterExtra`,
and `updateOffsets` from the running offset `n` sets its `StartOffset` and its
`EndOffset` to `n` plus the length of `BeforeExtra`; the partial tree returned for
a space followed by the byte `0xff`, which arrives with `StartOffset` 1 and
`EndOffset` 0, leaves `UpdateOffsets` with both offsets 1. -/
theorem no_payload_Pack_updateOffsets (H : Helpers) (be : Extra) (s e : Int) (ae : Extra)
    (n : Int) :
    (Value.mk be s .none e ae).Pack H = be.bytes ++ ae.bytes ∧
      (Value.mk be s .none e ae).PackWithQuotedKeys H = be.bytes ++ ae.bytes ∧
      (Value.mk be s .none e ae).updateOffsets H n
        = (.mk be (n + be.bytes.length) .none (n + be.bytes.length) ae,
            n + be.bytes.length + ae.bytes.length) ∧
      (treePartial.StartOffset = 1 ∧ treePartial.EndOffset = 0 ∧
        treePartial.Pack H = str " " ∧
        treePartial.UpdateOffsets H = .mk (.buf (str " ")) 1 .none 1 .null ∧
        (treePartial.UpdateOffsets H).StartOffset ≤ (treePartial.UpdateOffsets H).EndOffset) := by
  refine ⟨?_, ?_, ?_, ?_⟩
  · rw [Value_Pack_eq]; simp [Payload.Pack, Payload.append]
  · rw [Value.PackWithQuotedKeys, Value_append_nil]; simp [Payload.append]
  · simp [Value.updateOffsets, Payload.updateOffsets]
  · exact ⟨rfl, rfl, rfl, rfl, le_of_eq rfl⟩

/-! ## Independence from the stored offsets (C15) -/

mutual
theorem Value_updateOffsets_of_erase (H : Helpers) :
    ∀ (v : Value) (n : Int), v.eraseOffsets.updateOffsets H n = v.updateOffsets H n
  | .mk be s p e ae, n => by
    simp only [Value.updateOffsets, Value.eraseOffsets]
    rw [Payload_updateOffsets_of_erase H p]
theorem Payload_updateOffsets_of_erase (H : Helpers) :
    ∀ (p : Payload) (n : Int), p.eraseOffsets.updateOffsets H n = p.updateOffsets H n
  | .none, n => by simp [Payload.eraseOffsets]
  | .Literal lit, n => by simp [Payload.eraseOffsets]
  | .Object ms ae, n => by
    simp only [Payload.updateOffsets, Payload.eraseOffsets]
    rw [updateMembers_of_erase H ms]
  | .Array es ae, n => by
    simp only [Payload.updateOffsets, Payload.eraseOffsets]
    rw [updateElements_of_erase H es]
theorem updateMembers_of_erase (H : Helpers) :
    ∀ (ms : List ObjectMember) (n : Int),
      updateMembers H (eraseMembers ms) n = updateMembers H ms n
  | [], n => by simp [eraseMembers]
  | .mk name value :: ms, n => by
    simp only [updateMembers, eraseMembers]
    rw [Value_updateOffsets_of_erase H name, Value_updateOffsets_of_erase H value,
      updateMembers_of_erase H ms]
theorem updateElements_of_erase (H : Helpers) :
    ∀ (es : List Value) (n : Int),
      updateElements H (eraseElements es) n = updateElements H es n
  | [], n => by simp [eraseElements]
  | e :: es, n => by
    simp only [updateElements, eraseElements]
    rw [Value_updateOffsets_of_erase H e, updateElements_of_erase H es]
end

theorem updateOffsets_congr_erase (H : Helpers) (v w : Value) (n : Int)
    (h : v.eraseOffsets = w.eraseOffsets) : v.updateOffsets H n = w.updateOffsets H n := by
  rw [← Value_updateOffsets_of_erase H v, h, Value_updateOffsets_of_erase H w]

/-- C15: the result of `UpdateOffsets` does not depend on the offsets stored before
the call: two trees that are equal except for their `StartOffset` and `EndOffset`
values are taken to the same tree, and `UpdateOffsets` applied twice gives the tree
it gives when applied once. -/
theorem UpdateOffsets_ignores_stored_offsets (H : Helpers) (v w : Value)
    (h : v.eraseOffsets = w.eraseOffsets) :
    v.UpdateOffsets H = w.UpdateOffsets H ∧
      (v.UpdateOffsets H).UpdateOffsets H = v.UpdateOffsets H := by
  refine ⟨?_, ?_⟩
  · simp only [Value.UpdateOffsets]
    rw [updateOffsets_congr_erase H v w 0 h]
  · simp only [Value.UpdateOffsets]
    rw [updateOffsets_congr_erase H (v.updateOffsets H 0).1 v 0
      (Value_updateOffsets_erase H v 0)]

/-- C15 on the nested-comment fixture and the same tree with its offsets set to
zero. -/
theorem UpdateOffsets_ignores_stored_offsets_witness :
    treeComments.eraseOffsets = treeComments.eraseOffsets.eraseOffsets ∧
      (treeComments.UpdateOffsets tableHelpers
          = treeComments.eraseOffsets.UpdateOffsets tableHelpers ∧
        (treeComments.UpdateOffsets tableHelpers).UpdateOffsets tableHelpers
          = treeComments.UpdateOffsets tableHelpers) :=
  ⟨rfl, UpdateOffsets_ignores_stored_offsets tableHelpers treeComments
    treeComments.eraseOffsets rfl⟩

/-! ## Nesting and order of the offsets (C16) -/

mutual
theorem Value_updateOffsets_ordered (H : Helpers) :
    ∀ (v : Value) (n : Int),
      n ≤ (v.updateOffsets H n).1.StartOffset ∧
      (v.updateOffsets H n).1.StartOffset ≤ (v.updateOffsets H n).1.EndOffset ∧
      (v.updateOffsets H n).1.EndOffset ≤ (v.updateOffsets H n).2 ∧
      ∀ p ∈ (v.updateOffsets H n).1.nodes, p.childrenOrdered
  | .mk be s p e ae, n => by
    obtain ⟨h1, h2, h3⟩ := Payload_updateOffsets_ordered H p (n + be.bytes.length)
    simp only [Value.updateOffsets, Value.StartOffset, Value.EndOffset, Value.nodes,
      List.mem_cons]
    refine ⟨by omega, h1, by omega, ?_⟩
    intro q hq
    rcases hq with rfl | hq
    · exact h2 be ae
    · exact h3 q hq
theorem Payload_updateOffsets_ordered (H : Helpers) :
    ∀ (p : Payload) (n : Int),
      n ≤ (p.updateOffsets H n).2 ∧
      (∀ be ae : Extra,
        (Value.mk be n (p.updateOffsets H n).1 (p.updateOffsets H n).2 ae).childrenOrdered) ∧
      ∀ q ∈ (p.updateOffsets H n).1.nodes, q.childrenOrdered
  | .none, n => by simp [Payload.updateOffsets, Value.childrenOrdered, Payload.nodes]
  | .Literal lit, n => by
    simp [Payload.updateOffsets, Value.childrenOrdered, Payload.nodes]
  | .Object ms ae, n => by
    obtain ⟨h1, h2, h3, h4⟩ := updateMembers_ordered H ms (n + 1)
    simp only [Payload.updateOffsets, Payload.nodes]
    generalize updateMembers H ms (n + 1) = r at h1 h2 h3 h4 ⊢
    obtain ⟨ms', k⟩ := r
    simp only at h1 h2 h3 h4 ⊢
    have hk : k ≤ (if (Payload.Object ms' ae).length > 0
        && !H.hasTrailingComma (.Object ms' ae) then k - 1 else k) + ae.bytes.length + 1 := by
      split <;> omega
    refine ⟨by omega, ?_, h4⟩
    intro be' ae'
    refine ⟨?_, h3⟩
    intro m hm
    obtain ⟨a1, a2, a3, a4, a5⟩ := h2 m hm
    exact ⟨by omega, by omega, by omega, by omega, a3⟩
  | .Array es ae, n => by
    obtain ⟨h1, h2, h3, h4⟩ := updateElements_ordered H es (n + 1)
    simp only [Payload.updateOffsets, Payload.nodes]
    generalize updateElements H es (n + 1) = r at h1 h2 h3 h4 ⊢
    obtain ⟨es', k⟩ := r
    simp only at h1 h2 h3 h4 ⊢
    have hk : k ≤ (if (Payload.Array es' ae).length > 0
        && !H.hasTrailingComma (.Array es' ae) then k - 1 else k) + ae.bytes.length + 1 := by
      split <;> omega
    refine ⟨by omega, ?_, h4⟩
    intro be' ae'
    refine ⟨?_, h3⟩
    intro c hc
    obtain ⟨a1, a2⟩ := h2 c hc
    exact ⟨by omega, by omega⟩
theorem updateMembers_ordered (H : Helpers) :
    ∀ (ms : List ObjectMember) (n : Int),
      n ≤ (updateMembers H ms n).2 ∧
      (∀ m ∈ (updateMembers H ms n).1,
        n ≤ m.Name.StartOffset ∧ m.Name.StartOffset ≤ m.Name.EndOffset ∧
          m.Name.EndOffset < m.Value.StartOffset ∧
          m.Value.StartOffset ≤ m.Value.EndOffset ∧
          m.Value.EndOffset < (updateMembers H ms n).2) ∧
      List.Chain' (fun a b : ObjectMember => a.Value.EndOffset < b.Name.StartOffset)
        (updateMembers H ms n).1 ∧
      ∀ q ∈ membersNodes (updateMembers H ms n).1, q.childrenOrdered
  | [], n => by simp [updateMembers, membersNodes]
  | .mk name value :: ms, n => by
    obtain ⟨a1, a2, a3, a4⟩ := Value_updateOffsets_ordered H name n
    simp only [updateMembers]
    generalize Value.updateOffsets H name n = r1 at a1 a2 a3 a4 ⊢
    obtain ⟨name', k1⟩ := r1
    simp only at a1 a2 a3 a4 ⊢
    obtain ⟨b1, b2, b3, b4⟩ := Value_updateOffsets_ordered H value (k1 + 1)
    generalize Value.updateOffsets H value (k1 + 1) = r2 at b1 b2 b3 b4 ⊢
    obtain ⟨value', k2⟩ := r2
    simp only at b1 b2 b3 b4 ⊢
    obtain ⟨c1, c2, c3, c4⟩ := updateMembers_ordered H ms (k2 + 1)
    generalize updateMembers H ms (k2 + 1) = r3 at c1 c2 c3 c4 ⊢
    obtain ⟨ms', k3⟩ := r3
    simp only at c1 c2 c3 c4 ⊢
    refine ⟨by omega, ?_, ?_, ?_⟩
    · intro m hm
      rcases List.mem_cons.mp hm with rfl | hm
      · simp only [ObjectMember.Name, ObjectMember.Value]
        exact ⟨a1, a2, by omega, b2, by omega⟩
      · obtain ⟨d1, d2, d3, d4, d5⟩ := c2 m hm
        exact ⟨by omega, d2, d3, d4, d5⟩
    · rw [List.chain'_cons']
      refine ⟨?_, c3⟩
      intro y hy
      obtain ⟨d1, -⟩ := c2 y (List.mem_of_mem_head? hy)
      simp only [ObjectMember.Value]
      omega
    · intro q hq
      simp only [membersNodes, List.mem_append] at hq
      rcases hq with hq | hq | hq
      · exact a4 q hq
      · exact b4 q hq
      · exact c4 q hq
theorem updateElements_ordered (H : Helpers) :
    ∀ (es : List Value) (n : Int),
      n ≤ (updateElements H es n).2 ∧
      (∀ c ∈ (updateElements H es n).1,
        n ≤ c.StartOffset ∧ c.EndOffset < (updateElements H es n).2) ∧
      List.Chain' (fun a b : Value => a.EndOffset < b.StartOffset) (updateElements H es n).1 ∧
      ∀ q ∈ elementsNodes (updateElements H es n).1, q.childrenOrdered
  | [], n => by simp [updateElements, elementsNodes]
  | e :: es, n => by
    obtain ⟨a1, a2, a3, a4⟩ := Value_updateOffsets_ordered H e n
    simp only [updateElements]
    generalize Value.updateOffsets H e n = r1 at a1 a2 a3 a4 ⊢
    obtain ⟨e', k1⟩ := r1
    simp only at a1 a2 a3 a4 ⊢
    obtain ⟨c1, c2, c3, c4⟩ := updateElements_ordered H es (k1 + 1)
    generalize updateElements H es (k1 + 1) = r3 at c1 c2 c3 c4 ⊢
    obtain ⟨es', k3⟩ := r3
    simp only at c1 c2 c3 c4 ⊢
    refine ⟨by omega, ?_, ?_, ?_⟩
    · intro c hc
      rcases List.mem_cons.mp hc with rfl | hc
      · exact ⟨a1, by omega⟩
      · obtain ⟨d1, d2⟩ := c2 c hc
        exact ⟨by omega, d2⟩
    · rw [List.chain'_cons']
      refine ⟨?_, c3⟩
      intro y hy
      obtain ⟨d1, -⟩ := c2 y (List.mem_of_mem_head? hy)
      omega
    · intro q hq
      simp only [elementsNodes, List.mem_append] at hq
      rcases hq with hq | hq
      · exact a4 q hq
      · exact c4 q hq
end

/-- C16: after `UpdateOffsets`, for every composite `p` of the tree and every child
`c` of `p`, `p.StartOffset < c.StartOffset` and `c.EndOffset < p.EndOffset`; each
array element ends before the next one starts; the name of a member ends before its
value starts; and the value of a member ends before the name of the next member
starts. -/
theorem UpdateOffsets_nested_ordered (H : Helpers) (root p : Value)
    (hp : p ∈ (root.UpdateOffsets H).nodes) :
    (∀ (es : List Value) (ae : Extra), p.payload = .Array es ae →
        (∀ c ∈ es, p.StartOffset < c.StartOffset ∧ c.EndOffset < p.EndOffset) ∧
          List.Chain' (fun a b : Value => a.EndOffset < b.StartOffset) es) ∧
      (∀ (ms : List ObjectMember) (ae : Extra), p.payload = .Object ms ae →
        (∀ m ∈ ms, p.StartOffset < m.Name.StartOffset ∧ m.Name.EndOffset < p.EndOffset ∧
            p.StartOffset < m.Value.StartOffset ∧ m.Value.EndOffset < p.EndOffset ∧
            m.Name.EndOffset < m.Value.StartOffset) ∧
          List.Chain' (fun a b : ObjectMember => a.Value.EndOffset < b.Name.StartOffset)
            ms) := by
  have h := (Value_updateOffsets_ordered H root 0).2.2.2 p hp
  cases p with
  | mk be s pl e ae =>
    refine ⟨?_, ?_⟩
    · intro es ae2 hpl
      simp only [Value.payload] at hpl
      subst hpl
      exact h
    · intro ms ae2 hpl
      simp only [Value.payload] at hpl
      subst hpl
      exact h

/-- C16 on the tree for `{pos: {x: 1, y: 2}}`, at its root. -/
theorem UpdateOffsets_nested_ordered_witness :
    treePos ∈ (treePos.UpdateOffsets tableHelpers).nodes ∧
      ((∀ (es : List Value) (ae : Extra), treePos.payload = .Array es ae →
          (∀ c ∈ es, treePos.StartOffset < c.StartOffset ∧ c.EndOffset < treePos.EndOffset) ∧
            List.Chain' (fun a b : Value => a.EndOffset < b.StartOffset) es) ∧
        (∀ (ms : List ObjectMember) (ae : Extra), treePos.payload = .Object ms ae →
          (∀ m ∈ ms, treePos.StartOffset < m.Name.StartOffset ∧
              m.Name.EndOffset < treePos.EndOffset ∧
              treePos.StartOffset < m.Value.StartOffset ∧
              m.Value.EndOffset < treePos.EndOffset ∧
              m.Name.EndOffset < m.Value.StartOffset) ∧
            List.Chain' (fun a b : ObjectMember => a.Value.EndOffset < b.Name.StartOffset)
              ms)) :=
  ⟨.head _, UpdateOffsets_nested_ordered tableHelpers treePos treePos (.head _)⟩

/-! ## `PackWithQuotedKeys` as `Pack` of the quoted tree (C17) -/

theorem quoteMembers_length (H : Helpers) :
    ∀ ms : List ObjectMember, (quoteMembers H ms).length = ms.length
  | [] => rfl
  | .mk _ _ :: ms => by simp [quoteMembers, quoteMembers_length H ms]

theorem quoteElements_length (H : Helpers) :
    ∀ es : List Value, (quoteElements H es).length = es.length
  | [] => rfl
  | _ :: es => by simp [quoteElements, quoteElements_length H es]

mutual
theorem Value_append_quoteKeys (H : Helpers) (hH : H.ignoresQuoting) :
    ∀ (v : Value) (b : Bytes), (v.quoteKeys H).append H b false = v.append H b true
  | .mk be s p e ae, b => by
    simp only [Value.append, Value.quoteKeys]
    rw [Payload_append_quoteKeys H hH p]
theorem Payload_append_quoteKeys (H : Helpers) (hH : H.ignoresQuoting) :
    ∀ (p : Payload) (b : Bytes), (p.quoteKeys H).append H b false = p.append H b true
  | .none, b => by simp [Payload.quoteKeys, Payload.append]
  | .Literal lit, b => by
    simp only [Payload.quoteKeys, Payload.append, appendLiteral, quoteLiteral]
    cases H.isUnquotedKey lit <;> simp
  | .Object ms ae, b => by
    have h := hH (.Object ms ae)
    simp only [Payload.quoteKeys] at h
    simp only [Payload.append, Payload.quoteKeys, Payload.length]
    rw [appendMembers_quoteKeys H hH ms, h]
    simp only [quoteMembers_length]
  | .Array es ae, b => by
    have h := hH (.Array es ae)
    simp only [Payload.quoteKeys] at h
    simp only [Payload.append, Payload.quoteKeys, Payload.length]
    rw [appendElements_quoteKeys H hH es, h]
    simp only [quoteElements_length]
theorem appendMembers_quoteKeys (H : Helpers) (hH : H.ignoresQuoting) :
    ∀ (ms : List ObjectMember) (b : Bytes),
      appendMembers H (quoteMembers H ms) b false = appendMembers H ms b true
  | [], b => by simp [quoteMembers, appendMembers]
  | .mk name value :: ms, b => by
    simp only [appendMembers, quoteMembers]
    rw [Value_append_quoteKeys H hH name, Value_append_quoteKeys H hH value,
      appendMembers_quoteKeys H hH ms]
theorem appendElements_quoteKeys (H : Helpers) (hH : H.ignoresQuoting) :
    ∀ (es : List Value) (b : Bytes),
      appendElements H (quoteElements H es) b false = appendElements H es b true
  | [], b => by simp [quoteElements, appendElements]
  | e :: es, b => by
    simp only [appendElements, quoteElements]
    rw [Value_append_quoteKeys H hH e, appendElements_quoteKeys H hH es]
end

mutual
theorem Value_append_of_countKeys (H : Helpers) :
    ∀ (v : Value) (b : Bytes), v.countKeys H = 0 → v.append H b true = v.append H b false
  | .mk be s p e ae, b, h => by
    simp only [Value.countKeys] at h
    simp only [Value.append]
    rw [Payload_append_of_countKeys H p _ h]
theorem Payload_append_of_countKeys (H : Helpers) :
    ∀ (p : Payload) (b : Bytes), p.countKeys H = 0 → p.append H b true = p.append H b false
  | .none, b, _ => by simp [Payload.append]
  | .Literal lit, b, h => by
    simp only [Payload.countKeys] at h
    have : H.isUnquotedKey lit = false := by
      cases hk : H.isUnquotedKey lit
      · rfl
      · simp [hk] at h
    simp [Payload.append, appendLiteral, this]
  | .Object ms ae, b, h => by
    simp only [Payload.countKeys] at h
    simp only [Payload.append]
    rw [appendMembers_of_countKeys H ms _ h]
  | .Array es ae, b, h => by
    simp only [Payload.countKeys] at h
    simp only [Payload.append]
    rw [appendElements_of_countKeys H es _ h]
theorem appendMembers_of_countKeys (H : Helpers) :
    ∀ (ms : List ObjectMember) (b : Bytes), countKeysMembers H ms = 0 →
      appendMembers H ms b true = appendMembers H ms b false
  | [], b, _ => by simp [appendMembers]
  | .mk name value :: ms, b, h => by
    simp only [countKeysMembers] at h
    simp only [appendMembers]
    rw [Value_append_of_countKeys H name _ (by omega),
      Value_append_of_countKeys H value _ (by omega),
      appendMembers_of_countKeys H ms _ (by omega)]
theorem appendElements_of_countKeys (H : Helpers) :
    ∀ (es : List Value) (b : Bytes), countKeysElements H es = 0 →
      appendElements H es b true = appendElements H es b false
  | [], b, _ => by simp [appendElements]
  | e :: es, b, h => by
    simp only [countKeysElements] at h
    simp only [appendElements]
    rw [Value_append_of_countKeys H e _ (by omega),
      appendElements_of_countKeys H es _ (by omega)]
end

theorem Payload_append_Object_raw (H : Helpers) (q : Bool) (ms : List ObjectMember)
    (ae : Extra) :
    (Payload.Object ms ae).append H [] q
      = [lbrace] ++ ((if ms.length > 0 && !H.hasTrailingComma (.Object ms ae)
          then (appendMembers H ms [] q).dropLast else appendMembers H ms [] q)
          ++ (ae.bytes ++ [rbrace])) := by
  simp only [Payload.append, List.nil_append, Payload.length]
  rw [appendMembers_eq]
  cases ms with
  | nil => simp
  | cons m ms =>
    split
    · rw [take_pred_append _ (appendMembers_ne_nil H m ms q), ← List.dropLast_eq_take]
      simp
    · simp

theorem Payload_append_Array_raw (H : Helpers) (q : Bool) (es : List Value) (ae : Extra) :
    (Payload.Array es ae).append H [] q
      = [lbracket] ++ ((if es.length > 0 && !H.hasTrailingComma (.Array es ae)
          then (appendElements H es [] q).dropLast else appendElements H es [] q)
          ++ (ae.bytes ++ [rbracket])) := by
  simp only [Payload.append, List.nil_append, Payload.length]
  rw [appendElements_eq]
  cases es with
  | nil => simp
  | cons e es =>
    split
    · rw [take_pred_append _ (appendElements_ne_nil H e es q), ← List.dropLast_eq_take]
      simp
    · simp

mutual
theorem Value_append_length_quoted (H : Helpers) :
    ∀ v : Value, (v.append H [] true).length = (v.append H [] false).length + 2 * v.countKeys H
  | .mk be s p e ae => by
    have ih := Payload_append_length_quoted H p
    rw [Value_append_nil, Value_append_nil]
    simp only [List.length_append, Value.countKeys, ih]
    omega
theorem Payload_append_length_quoted (H : Helpers) :
    ∀ p : Payload, (p.append H [] true).length = (p.append H [] false).length + 2 * p.countKeys H
  | .none => by simp [Payload.append, Payload.countKeys]
  | .Literal lit => by
    simp only [Payload.append, appendLiteral, Payload.countKeys]
    cases H.isUnquotedKey lit <;> simp
  | .Object ms ae => by
    have ih := appendMembers_length_quoted H ms
    rw [Payload_append_Object_raw, Payload_append_Object_raw]
    simp only [Payload.countKeys]
    cases ms with
    | nil => simp [appendMembers, countKeysMembers]
    | cons m ms =>
      have h1 := List.length_pos.mpr (appendMembers_ne_nil H m ms false)
      split
      · simp only [List.length_append, List.length_dropLast, ih, List.length_cons,
          List.length_nil]
        omega
      · simp only [List.length_append, ih, List.length_cons, List.length_nil]
        omega
  | .Array es ae => by
    have ih := appendElements_length_quoted H es
    rw [Payload_append_Array_raw, Payload_append_Array_raw]
    simp only [Payload.countKeys]
    cases es with
    | nil => simp [appendElements, countKeysElements]
    | cons e es =>
      have h1 := List.length_pos.mpr (appendElements_ne_nil H e es false)
      split
      · simp only [List.length_append, List.length_dropLast, ih, List.length_cons,
          List.length_nil]
        omega
      · simp only [List.length_append, ih, List.length_cons, List.length_nil]
        omega
theorem appendMembers_length_quoted (H : Helpers) :
    ∀ ms : List ObjectMember, (appendMembers H ms [] true).length
      = (appendMembers H ms [] false).length + 2 * countKeysMembers H ms
  | [] => by simp [appendMembers, countKeysMembers]
  | .mk name value :: ms => by
    have i1 := Value_append_length_quoted H name
    have i2 := Value_append_length_quoted H value
    have i3 := appendMembers_length_quoted H ms
    simp only [appendMembers, countKeysMembers]
    rw [appendMembers_eq, Value_append_eq H value, appendMembers_eq H ms _ false,
      Value_append_eq H value _ false]
    simp only [List.length_append, i1, i2, i3, List.length_cons, List.length_nil,
      List.nil_append]
    omega
theorem appendElements_length_quoted (H : Helpers) :
    ∀ es : List Value, (appendElements H es [] true).length
      = (appendElements H es [] false).length + 2 * countKeysElements H es
  | [] => by simp [appendElements, countKeysElements]
  | e :: es => by
    have i1 := Value_append_length_quoted H e
    have i3 := appendElements_length_quoted H es
    simp only [appendElements, countKeysElements]
    rw [appendElements_eq, appendElements_eq H es _ false]
    simp only [List.length_append, i1, i3, List.length_cons, List.length_nil,
      List.nil_append]
    omega
end

theorem quoteElements_eq_map (H : Helpers) :
    ∀ es : List Value, quoteElements H es = es.map (Value.quoteKeys H)
  | [] => rfl
  | e :: es => by simp [quoteElements, quoteElements_eq_map H es]

theorem quoteMembers_eq_map (H : Helpers) :
    ∀ ms : List ObjectMember, quoteMembers H ms
      = ms.map (fun m => .mk (m.Name.quoteKeys H) (m.Value.quoteKeys H))
  | [] => rfl
  | .mk name value :: ms => by
    simp [quoteMembers, quoteMembers_eq_map H ms, ObjectMember.Name, ObjectMember.Value]

theorem Value_quoteKeys_AfterExtra (H : Helpers) (v : Value) :
    (v.quoteKeys H).AfterExtra = v.AfterExtra := by
  cases v; rfl

theorem tableHelpers_ignoresQuoting : tableHelpers.ignoresQuoting := by
  intro p
  cases p with
  | none => rfl
  | Literal lit => rfl
  | Object ms ae =>
    simp only [Payload.quoteKeys, quoteMembers_eq_map]
    simp only [tableHelpers, Payload.lastValue, List.getLast?_map, Option.map_map]
    cases ms.getLast? with
    | none => rfl
    | some m => simp [ObjectMember.Value, Value_quoteKeys_AfterExtra]
  | Array es ae =>
    simp only [Payload.quoteKeys, quoteElements_eq_map]
    simp only [tableHelpers, Payload.lastValue, List.getLast?_map]
    cases es.getLast? with
    | none => rfl
    | some m => simp [Value_quoteKeys_AfterExtra]

/-- C17: `hasTrailingComma` not reading the bytes of literals, `v.PackWithQuotedKeys()`
is `Pack` of the tree obtained from `v` by wrapping in `"` every `Literal` for which
`isUnquotedKey` holds; it is `v.Pack()` when no literal of `v` is an unquoted key, and
its length is that of `v.Pack()` plus 2 for each such literal; the tree for
`{pos: {x: 1, y: 2}}` packs with quoted keys to `{"pos": {"x": 1, "y": 2}}`. -/
theorem PackWithQuotedKeys_eq_Pack_quoteKeys (H : Helpers) (v : Value) :
    (H.ignoresQuoting → v.PackWithQuotedKeys H = (v.quoteKeys H).Pack H) ∧
      (v.countKeys H = 0 → v.PackWithQuotedKeys H = v.Pack H) ∧
      (v.PackWithQuotedKeys H).length = (v.Pack H).length + 2 * v.countKeys H ∧
      treePos.PackWithQuotedKeys tableHelpers
        = str "\x7b\"pos\": \x7b\"x\": 1, \"y\": 2\x7d\x7d" := by
  refine ⟨fun hH => (Value_append_quoteKeys H hH v []).symm,
    fun h => Value_append_of_countKeys H v [] h, Value_append_length_quoted H v, by decide⟩

/-- C17 on the tree for `{pos: {x: 1, y: 2}}`, which has three unquoted keys, and on
the tree for ` [ "s" , ] `, which has none. -/
theorem PackWithQuotedKeys_eq_Pack_quoteKeys_witness :
    tableHelpers.ignoresQuoting ∧
      treeArrayTrailing.countKeys tableHelpers = 0 ∧
      treePos.PackWithQuotedKeys tableHelpers
        = (treePos.quoteKeys tableHelpers).Pack tableHelpers ∧
      treeArrayTrailing.PackWithQuotedKeys tableHelpers
        = treeArrayTrailing.Pack tableHelpers ∧
      (treePos.PackWithQuotedKeys tableHelpers).length
        = (treePos.Pack tableHelpers).length + 2 * 3 :=
  ⟨tableHelpers_ignoresQuoting, by decide,
    (PackWithQuotedKeys_eq_Pack_quoteKeys tableHelpers treePos).1 tableHelpers_ignoresQuoting,
    (PackWithQuotedKeys_eq_Pack_quoteKeys tableHelpers treeArrayTrailing).2.1 (by decide),
    (PackWithQuotedKeys_eq_Pack_quoteKeys tableHelpers treePos).2.2.1⟩

/-! ## Translation of the running count with exact integers -/

mutual
theorem Value_erase_shift (k : Int) :
    ∀ v : Value, (v.shiftOffsets k).eraseOffsets = v.eraseOffsets
  | .mk be s p e ae => by
    simp only [Value.shiftOffsets, Value.eraseOffsets]
    rw [Payload_erase_shift k p]
theorem Payload_erase_shift (k : Int) :
    ∀ p : Payload, (p.shiftOffsets k).eraseOffsets = p.eraseOffsets
  | .none => rfl
  | .Literal _ => rfl
  | .Object ms ae => by
    simp only [Payload.shiftOffsets, Payload.eraseOffsets]
    rw [eraseMembers_shift k ms]
  | .Array es ae => by
    simp only [Payload.shiftOffsets, Payload.eraseOffsets]
    rw [eraseElements_shift k es]
theorem eraseMembers_shift (k : Int) :
    ∀ ms : List ObjectMember, eraseMembers (shiftMembers k ms) = eraseMembers ms
  | [] => rfl
  | .mk name value :: ms => by
    simp only [shiftMembers, eraseMembers]
    rw [Value_erase_shift k name, Value_erase_shift k value, eraseMembers_shift k ms]
theorem eraseElements_shift (k : Int) :
    ∀ es : List Value, eraseElements (shiftElements k es) = eraseElements es
  | [] => rfl
  | e :: es => by
    simp only [shiftElements, eraseElements]
    rw [Value_erase_shift k e, eraseElements_shift k es]
end

theorem shiftMembers_length (k : Int) :
    ∀ ms : List ObjectMember, (shiftMembers k ms).length = ms.length
  | [] => rfl
  | .mk _ _ :: ms => by simp [shiftMembers, shiftMembers_length k ms]

theorem shiftElements_length (k : Int) :
    ∀ es : List Value, (shiftElements k es).length = es.length
  | [] => rfl
  | _ :: es => by simp [shiftElements, shiftElements_length k es]

theorem hasTrailingComma_shift (H : Helpers) (hH : H.ignoresOffsets) (k : Int) (p : Payload) :
    H.hasTrailingComma (p.shiftOffsets k) = H.hasTrailingComma p := by
  rw [← hH (p.shiftOffsets k), Payload_erase_shift, hH]

mutual
theorem Value_updateOffsets_shift (H : Helpers) (hH : H.ignoresOffsets) (k : Int) :
    ∀ (v : Value) (n : Int), v.updateOffsets H (n + k)
      = ((v.updateOffsets H n).1.shiftOffsets k, (v.updateOffsets H n).2 + k)
  | .mk be s p e ae, n => by
    have ih := Payload_updateOffsets_shift H hH k p (n + be.bytes.length)
    have e1 : n + k + (be.bytes.length : Int) = n + be.bytes.length + k := by omega
    simp only [Value.updateOffsets, e1, ih, Value.shiftOffsets]
    refine Prod.ext ?_ ?_
    · rfl
    · simp only; omega
theorem Payload_updateOffsets_shift (H : Helpers) (hH : H.ignoresOffsets) (k : Int) :
    ∀ (p : Payload) (n : Int), p.updateOffsets H (n + k)
      = ((p.updateOffsets H n).1.shiftOffsets k, (p.updateOffsets H n).2 + k)
  | .none, n => by simp [Payload.updateOffsets, Payload.shiftOffsets]
  | .Literal lit, n => by
    simp only [Payload.updateOffsets, Payload.shiftOffsets]
    refine Prod.ext rfl ?_
    simp only; omega
  | .Object ms ae, n => by
    have ih := updateMembers_shift H hH k ms (n + 1)
    have e1 : n + k + 1 = n + 1 + k := by omega
    have ht := hasTrailingComma_shift H hH k (.Object (updateMembers H ms (n + 1)).1 ae)
    simp only [Payload.shiftOffsets] at ht
    simp only [Payload.updateOffsets, e1, ih, Payload.shiftOffsets, Payload.length, ht,
      shiftMembers_length]
    refine Prod.ext rfl ?_
    simp only
    split <;> omega
  | .Array es ae, n => by
    have ih := updateElements_shift H hH k es (n + 1)
    have e1 : n + k + 1 = n + 1 + k := by omega
    have ht := hasTrailingComma_shift H hH k (.Array (updateElements H es (n + 1)).1 ae)
    simp only [Payload.shiftOffsets] at ht
    simp only [Payload.updateOffsets, e1, ih, Payload.shiftOffsets, Payload.length, ht,
      shiftElements_length]
    refine Prod.ext rfl ?_
    simp only
    split <;> omega
theorem updateMembers_shift (H : Helpers) (hH : H.ignoresOffsets) (k : Int) :
    ∀ (ms : List ObjectMember) (n : Int), updateMembers H ms (n + k)
      = (shiftMembers k (updateMembers H ms n).1, (updateMembers H ms n).2 + k)
  | [], n => by simp [updateMembers, shiftMembers]
  | .mk name value :: ms, n => by
    have i1 := Value_updateOffsets_shift H hH k name n
    have i2 := Value_updateOffsets_shift H hH k value ((name.updateOffsets H n).2 + 1)
    have i3 := updateMembers_shift H hH k ms
      ((value.updateOffsets H ((name.updateOffsets H n).2 + 1)).2 + 1)
    have e1 : (name.updateOffsets H n).2 + k + 1 = (name.updateOffsets H n).2 + 1 + k := by
      omega
    have e2 : (value.updateOffsets H ((name.updateOffsets H n).2 + 1)).2 + k + 1
        = (value.updateOffsets H ((name.updateOffsets H n).2 + 1)).2 + 1 + k := by omega
    simp only [updateMembers, i1, e1, i2, e2, i3, shiftMembers]
theorem updateElements_shift (H : Helpers) (hH : H.ignoresOffsets) (k : Int) :
    ∀ (es : List Value) (n : Int), updateElements H es (n + k)
      = (shiftElements k (updateElements H es n).1, (updateElements H es n).2 + k)
  | [], n => by simp [updateElements, shiftElements]
  | e :: es, n => by
    have i1 := Value_updateOffsets_shift H hH k e n
    have i3 := updateElements_shift H hH k es ((e.updateOffsets H n).2 + 1)
    have e1 : (e.updateOffsets H n).2 + k + 1 = (e.updateOffsets H n).2 + 1 + k := by omega
    simp only [updateElements, i1, e1, i3, shiftElements]
end

/-- With exact integers, for every `v` and every starting count `n`, the walker
returns `n` plus the length of `v.Pack()`, and, `hasTrailingComma` not reading
offsets, the tree it leaves is the tree it leaves from the count 0 with every offset
increased by `n`. -/
theorem updateOffsets_translation (H : Helpers) (v : Value) (n : Int) :
    (v.updateOffsets H n).2 = n + ((v.updateOffsets H n).1.Pack H).length ∧
      (H.ignoresOffsets →
        (v.updateOffsets H n).2 = n + (v.Pack H).length ∧
          (v.updateOffsets H n).1 = (v.updateOffsets H 0).1.shiftOffsets n) := by
  refine ⟨(Value_updateOffsets_spec H v n).1, fun hH => ⟨?_, ?_⟩⟩
  · rw [(Value_updateOffsets_spec H v n).1, Value.Pack, append_updateOffsets H hH, Value.Pack]
  · have h := Value_updateOffsets_shift H hH n v 0
    rw [zero_add] at h
    rw [h]

/-- The translation with exact integers on the tree for ` [ "s" , ] `, from the
starting count 100. -/
theorem updateOffsets_translation_witness :
    tableHelpers.ignoresOffsets ∧
      ((treeArrayTrailing.updateOffsets tableHelpers 100).2
          = 100 + (treeArrayTrailing.Pack tableHelpers).length ∧
        (treeArrayTrailing.updateOffsets tableHelpers 100).1
          = (treeArrayTrailing.updateOffsets tableHelpers 0).1.shiftOffsets 100) :=
  ⟨tableHelpers_ignoresOffsets,
    (updateOffsets_translation tableHelpers treeArrayTrailing 100).2
      tableHelpers_ignoresOffsets⟩

/-! ## The loops of `append` on a list with a last child -/

theorem appendElements_concat (H : Helpers) (q : Bool) (e : Value) :
    ∀ (es : List Value) (b : Bytes), appendElements H (es ++ [e]) b q
      = appendElements H es b q ++ e.append H [] q ++ [comma]
  | [], b => by
    simp only [List.nil_append, appendElements]
    rw [Value_append_eq]
  | x :: es, b => by
    simp only [List.cons_append, appendElements]
    exact appendElements_concat H q e es _

theorem appendMembers_concat (H : Helpers) (q : Bool) (m : ObjectMember) :
    ∀ (ms : List ObjectMember) (b : Bytes), appendMembers H (ms ++ [m]) b q
      = appendMembers H ms b q
          ++ (m.Name.append H [] q ++ [colon] ++ m.Value.append H [] q) ++ [comma]
  | [], b => by
    cases m with
    | mk name value =>
      simp only [List.nil_append, appendMembers, ObjectMember.Name, ObjectMember.Value]
      rw [Value_append_eq H value, Value_append_eq H name]
      simp
  | x :: ms, b => by
    cases x with
    | mk name value =>
      simp only [List.cons_append, appendMembers]
      exact appendMembers_concat H q m ms _

/-! ## The running count as a Go `int` (C18) -/

theorem wrapInt64_eq {x : Int} (h1 : minInt64 ≤ x) (h2 : x ≤ maxInt64) : wrapInt64 x = x := by
  unfold minInt64 at h1
  unfold maxInt64 at h2
  unfold wrapInt64
  omega

theorem Value_updateOffsets_mono (H : Helpers) (v : Value) (n : Int) :
    n ≤ (v.updateOffsets H n).2 := by
  obtain ⟨h1, h2, h3, -⟩ := Value_updateOffsets_ordered H v n
  omega

mutual
theorem Value_updateOffsets64_eq (H : Helpers) :
    ∀ (v : Value) (n : Int), minInt64 ≤ n → (v.updateOffsets H n).2 ≤ maxInt64 →
      v.updateOffsets64 H n = v.updateOffsets H n
  | .mk be s p e ae, n, hmin, hmax => by
    have hm := (Payload_updateOffsets_ordered H p (n + be.bytes.length)).1
    simp only [Value.updateOffsets] at hmax
    simp only [Value.updateOffsets64, Value.updateOffsets]
    rw [wrapInt64_eq (by omega) (by omega),
      Payload_updateOffsets64_eq H p (n + be.bytes.length) (by omega) (by omega),
      wrapInt64_eq (by omega) (by omega)]
theorem Payload_updateOffsets64_eq (H : Helpers) :
    ∀ (p : Payload) (n : Int), minInt64 ≤ n → (p.updateOffsets H n).2 ≤ maxInt64 →
      p.updateOffsets64 H n = p.updateOffsets H n
  | .none, n, _, _ => rfl
  | .Literal lit, n, hmin, hmax => by
    simp only [Payload.updateOffsets] at hmax
    simp only [Payload.updateOffsets64, Payload.updateOffsets]
    rw [wrapInt64_eq (by omega) (by omega)]
  | .Object ms ae, n, hmin, hmax => by
    have hm := (updateMembers_ordered H ms (n + 1)).1
    simp only [Payload.updateOffsets] at hmax
    simp only [Payload.updateOffsets64, Payload.updateOffsets]
    have hk : (updateMembers H ms (n + 1)).2 ≤ maxInt64 := by
      split at hmax <;> omega
    rw [wrapInt64_eq (by omega) (by omega), updateMembers64_eq H ms (n + 1) (by omega) hk]
    split
    · rename_i hc
      rw [if_pos hc] at hmax
      rw [wrapInt64_eq (x := (updateMembers H ms (n + 1)).2 - 1) (by omega) (by omega),
        wrapInt64_eq (x := (updateMembers H ms (n + 1)).2 - 1 + ae.bytes.length) (by omega) (by omega),
        wrapInt64_eq (by omega) (by omega)]
    · rename_i hc
      rw [if_neg hc] at hmax
      rw [wrapInt64_eq (x := (updateMembers H ms (n + 1)).2 + ae.bytes.length) (by omega) (by omega),
        wrapInt64_eq (by omega) (by omega)]
  | .Array es ae, n, hmin, hmax => by
    have hm := (updateElements_ordered H es (n + 1)).1
    simp only [Payload.updateOffsets] at hmax
    simp only [Payload.updateOffsets64, Payload.updateOffsets]
    have hk : (updateElements H es (n + 1)).2 ≤ maxInt64 := by
      split at hmax <;> omega
    rw [wrapInt64_eq (by omega) (by omega), updateElements64_eq H es (n + 1) (by omega) hk]
    split
    · rename_i hc
      rw [if_pos hc] at hmax
      rw [wrapInt64_eq (x := (updateElements H es (n + 1)).2 - 1) (by omega) (by omega),
        wrapInt64_eq (x := (updateElements H es (n + 1)).2 - 1 + ae.bytes.length) (by omega) (by omega),
        wrapInt64_eq (by omega) (by omega)]
    · rename_i hc
      rw [if_neg hc] at hmax
      rw [wrapInt64_eq (x := (updateElements H es (n + 1)).2 + ae.bytes.length) (by omega) (by omega),
        wrapInt64_eq (by omega) (by omega)]
theorem updateMembers64_eq (H : Helpers) :
    ∀ (ms : List ObjectMember) (n : Int), minInt64 ≤ n → (updateMembers H ms n).2 ≤ maxInt64 →
      updateMembers64 H ms n = updateMembers H ms n
  | [], n, _, _ => rfl
  | .mk name value :: ms, n, hmin, hmax => by
    have m1 := Value_updateOffsets_mono H name n
    have m2 := Value_updateOffsets_mono H value ((name.updateOffsets H n).2 + 1)
    have m3 := (updateMembers_ordered H ms
      ((value.updateOffsets H ((name.updateOffsets H n).2 + 1)).2 + 1)).1
    simp only [updateMembers] at hmax
    simp only [updateMembers64, updateMembers]
    rw [Value_updateOffsets64_eq H name n hmin (by omega),
      wrapInt64_eq (by omega) (by omega),
      Value_updateOffsets64_eq H value _ (by omega) (by omega),
      wrapInt64_eq (by omega) (by omega),
      updateMembers64_eq H ms _ (by omega) (by omega)]
theorem updateElements64_eq (H : Helpers) :
    ∀ (es : List Value) (n : Int), minInt64 ≤ n → (updateElements H es n).2 ≤ maxInt64 →
      updateElements64 H es n = updateElements H es n
  | [], n, _, _ => rfl
  | e :: es, n, hmin, hmax => by
    have m1 := Value_updateOffsets_mono H e n
    have m3 := (updateElements_ordered H es ((e.updateOffsets H n).2 + 1)).1
    simp only [updateElements] at hmax
    simp only [updateElements64, updateElements]
    rw [Value_updateOffsets64_eq H e n hmin (by omega),
      wrapInt64_eq (by omega) (by omega),
      updateElements64_eq H es _ (by omega) (by omega)]
end

theorem Value_updateOffsets64_eq_of_length (H : Helpers) (v : Value) (n : Int) (h0 : 0 ≤ n)
    (h : n + ((v.updateOffsets H n).1.Pack H).length ≤ maxInt64) :
    v.updateOffsets64 H n = v.updateOffsets H n := by
  apply Value_updateOffsets64_eq H v n
  · unfold minInt64; omega
  · rw [(Value_updateOffsets_spec H v n).1]; exact h

/-- From the count 0 that `UpdateOffsets` passes, the walker with wrapping arithmetic
and the exact one agree as long as the packed text is no longer than the largest
`int`. -/
theorem UpdateOffsets64_eq (H : Helpers) (v : Value)
    (h : (((v.UpdateOffsets H).Pack H).length : Int) ≤ maxInt64) :
    v.updateOffsets64 H 0 = v.updateOffsets H 0 := by
  apply Value_updateOffsets64_eq_of_length H v 0 (le_refl 0)
  rw [zero_add]; exact h

/-- C18, as stated, fails: started at the largest `int`, which is a count `n >= 0`,
`updateOffsets` on the tree for ` null ` wraps around: the `StartOffset` it stores is
the smallest `int` and it returns -9223372036854775803, not `n` plus the length 6 of
the packed text. -/
theorem updateOffsets64_wraps_at_maxInt64 :
    (0 : Int) ≤ maxInt64 ∧
      (treeNull.updateOffsets64 tableHelpers maxInt64).2 = -9223372036854775803 ∧
      (treeNull.updateOffsets64 tableHelpers maxInt64).1.StartOffset = minInt64 ∧
      (treeNull.updateOffsets64 tableHelpers maxInt64).2
        ≠ maxInt64 + (treeNull.Pack tableHelpers).length := by
  decide

/-- C18, amended: for every `v` and every starting count `n >= 0` such that `n` plus
the length of `v.Pack()` does not exceed the largest `int`, `v.updateOffsets(n)`
wraps nowhere and returns `n` plus the length of `v.Pack()`; and, `hasTrailingComma`
not reading offsets, the tree it leaves is the tree `v.updateOffsets(0)` leaves with
every offset increased by `n`. -/
theorem updateOffsets64_translation (H : Helpers) (v : Value) (n : Int) (h0 : 0 ≤ n) :
    (n + ((v.updateOffsets H n).1.Pack H).length ≤ maxInt64 →
        v.updateOffsets64 H n = v.updateOffsets H n ∧
          (v.updateOffsets64 H n).2 = n + ((v.updateOffsets64 H n).1.Pack H).length) ∧
      (H.ignoresOffsets → n + (v.Pack H).length ≤ maxInt64 →
        (v.updateOffsets64 H n).2 = n + (v.Pack H).length ∧
          (v.updateOffsets64 H n).1 = (v.updateOffsets64 H 0).1.shiftOffsets n) := by
  refine ⟨fun h => ?_, fun hH h => ?_⟩
  · have e := Value_updateOffsets64_eq_of_length H v n h0 h
    rw [e]
    exact ⟨rfl, (Value_updateOffsets_spec H v n).1⟩
  · have hp : ∀ m : Int, (v.updateOffsets H m).1.Pack H = v.Pack H := fun m => by
      rw [Value.Pack, append_updateOffsets H hH, Value.Pack]
    have e := Value_updateOffsets64_eq_of_length H v n h0 (by rw [hp]; exact h)
    have e0 := Value_updateOffsets64_eq_of_length H v 0 (le_refl 0) (by rw [hp]; omega)
    rw [e, e0]
    refine ⟨?_, ?_⟩
    · rw [(Value_updateOffsets_spec H v n).1, hp]
    · have hs := Value_updateOffsets_shift H hH n v 0
      rw [zero_add] at hs
      rw [hs]

/-- C18, amended, on the tree for ` [ "s" , ] `, from the starting count 100. -/
theorem updateOffsets64_translation_witness :
    (0 : Int) ≤ 100 ∧
      100 + (((treeArrayTrailing.updateOffsets tableHelpers 100).1.Pack tableHelpers).length
        : Int) ≤ maxInt64 ∧
      tableHelpers.ignoresOffsets ∧
      100 + ((treeArrayTrailing.Pack tableHelpers).length : Int) ≤ maxInt64 ∧
      (treeArrayTrailing.updateOffsets64 tableHelpers 100
          = treeArrayTrailing.updateOffsets tableHelpers 100 ∧
        (treeArrayTrailing.updateOffsets64 tableHelpers 100).2
          = 100 + (((treeArrayTrailing.updateOffsets64 tableHelpers 100).1.Pack
              tableHelpers).length : Int)) ∧
      ((treeArrayTrailing.updateOffsets64 tableHelpers 100).2
          = 100 + ((treeArrayTrailing.Pack tableHelpers).length : Int) ∧
        (treeArrayTrailing.updateOffsets64 tableHelpers 100).1
          = (treeArrayTrailing.updateOffsets64 tableHelpers 0).1.shiftOffsets 100) :=
  ⟨by decide, by decide, tableHelpers_ignoresOffsets, by decide,
    (updateOffsets64_translation tableHelpers treeArrayTrailing 100 (by decide)).1 (by decide),
    (updateOffsets64_translation tableHelpers treeArrayTrailing 100 (by decide)).2
      tableHelpers_ignoresOffsets (by decide)⟩

/-! ## The re-slice of a composite (C19) -/

theorem Payload_append_Array_reslice (H : Helpers) (b : Bytes) (q : Bool) (es : List Value)
    (e : Value) (ae : Extra) :
    (Payload.Array (es ++ [e]) ae).append H b q
      = (if H.hasTrailingComma (.Array (es ++ [e]) ae)
          then appendElements H (es ++ [e]) (b ++ [lbracket]) q
          else (appendElements H (es ++ [e]) (b ++ [lbracket]) q).take
            ((appendElements H (es ++ [e]) (b ++ [lbracket]) q).length - 1))
        ++ ae.bytes ++ [rbracket] := by
  simp only [Payload.append, Payload.length]
  cases H.hasTrailingComma (.Array (es ++ [e]) ae) <;> simp

theorem Payload_append_Object_reslice (H : Helpers) (b : Bytes) (q : Bool)
    (ms : List ObjectMember) (m : ObjectMember) (ae : Extra) :
    (Payload.Object (ms ++ [m]) ae).append H b q
      = (if H.hasTrailingComma (.Object (ms ++ [m]) ae)
          then appendMembers H (ms ++ [m]) (b ++ [lbrace]) q
          else (appendMembers H (ms ++ [m]) (b ++ [lbrace]) q).take
            ((appendMembers H (ms ++ [m]) (b ++ [lbrace]) q).length - 1))
        ++ ae.bytes ++ [rbrace] := by
  simp only [Payload.append, Payload.length]
  cases H.hasTrailingComma (.Object (ms ++ [m]) ae) <;> simp

/-- C19: `v.append(b, quoteKeys)` is `b` followed by `v.append(nil, quoteKeys)`. A
composite writes after `b` its opening byte, its children separated by commas, its
`AfterExtra` and its closing byte. It re-slices only when it has a last child and
`hasTrailingComma` reports false; the buffer it re-slices is `b`, the opening byte,
the earlier children with their commas, the last child and the `,` written after it,
so `b[:len(b)-1]` is in bounds and removes that `,` and nothing else. A composite
without children does not re-slice. -/
theorem append_keeps_prefix (H : Helpers) (b : Bytes) (q : Bool) :
    (∀ v : Value, v.append H b q = b ++ v.append H [] q) ∧
      (∀ (es : List Value) (ae : Extra),
        (Payload.Array es ae).append H b q
          = b ++ [lbracket]
            ++ commaTerminated (es.map (fun e => e.append H [] q))
                (H.hasTrailingComma (.Array es ae))
            ++ ae.bytes ++ [rbracket]) ∧
      (∀ (ms : List ObjectMember) (ae : Extra),
        (Payload.Object ms ae).append H b q
          = b ++ [lbrace]
            ++ commaTerminated
                (ms.map (fun m => m.Name.append H [] q ++ [colon] ++ m.Value.append H [] q))
                (H.hasTrailingComma (.Object ms ae))
            ++ ae.bytes ++ [rbrace]) ∧
      (∀ ae : Extra,
        (Payload.Array [] ae).append H b q = b ++ [lbracket] ++ ae.bytes ++ [rbracket] ∧
          (Payload.Object [] ae).append H b q = b ++ [lbrace] ++ ae.bytes ++ [rbrace]) ∧
      (∀ (es : List Value) (e : Value) (ae : Extra),
        (Payload.Array (es ++ [e]) ae).append H b q
            = (if H.hasTrailingComma (.Array (es ++ [e]) ae)
                then appendElements H (es ++ [e]) (b ++ [lbracket]) q
                else (appendElements H (es ++ [e]) (b ++ [lbracket]) q).take
                  ((appendElements H (es ++ [e]) (b ++ [lbracket]) q).length - 1))
              ++ ae.bytes ++ [rbracket] ∧
          appendElements H (es ++ [e]) (b ++ [lbracket]) q
            = b ++ [lbracket] ++ appendElements H es [] q ++ e.append H [] q ++ [comma] ∧
          0 < (appendElements H (es ++ [e]) (b ++ [lbracket]) q).length ∧
          (appendElements H (es ++ [e]) (b ++ [lbracket]) q).take
              ((appendElements H (es ++ [e]) (b ++ [lbracket]) q).length - 1)
            = b ++ [lbracket] ++ appendElements H es [] q ++ e.append H [] q) ∧
      (∀ (ms : List ObjectMember) (m : ObjectMember) (ae : Extra),
        (Payload.Object (ms ++ [m]) ae).append H b q
            = (if H.hasTrailingComma (.Object (ms ++ [m]) ae)
                then appendMembers H (ms ++ [m]) (b ++ [lbrace]) q
                else (appendMembers H (ms ++ [m]) (b ++ [lbrace]) q).take
                  ((appendMembers H (ms ++ [m]) (b ++ [lbrace]) q).length - 1))
              ++ ae.bytes ++ [rbrace] ∧
          appendMembers H (ms ++ [m]) (b ++ [lbrace]) q
            = b ++ [lbrace] ++ appendMembers H ms [] q
                ++ (m.Name.append H [] q ++ [colon] ++ m.Value.append H [] q) ++ [comma] ∧
          0 < (appendMembers H (ms ++ [m]) (b ++ [lbrace]) q).length ∧
          (appendMembers H (ms ++ [m]) (b ++ [lbrace]) q).take
              ((appendMembers H (ms ++ [m]) (b ++ [lbrace]) q).length - 1)
            = b ++ [lbrace] ++ appendMembers H ms [] q
                ++ (m.Name.append H [] q ++ [colon] ++ m.Value.append H [] q)) := by
  refine ⟨fun v => Value_append_eq H v b q, ?_, ?_, ?_, ?_, ?_⟩
  · intro es ae
    rw [Payload_append_eq, Payload_append_Array]
    simp
  · intro ms ae
    rw [Payload_append_eq, Payload_append_Object]
    simp
  · intro ae
    constructor
    · rw [Payload_append_eq, Payload_append_Array]; simp [commaTerminated]
    · rw [Payload_append_eq, Payload_append_Object]; simp [commaTerminated]
  · intro es e ae
    have h : appendElements H (es ++ [e]) (b ++ [lbracket]) q
        = b ++ [lbracket] ++ appendElements H es [] q ++ e.append H [] q ++ [comma] := by
      rw [appendElements_concat, appendElements_eq]
    refine ⟨Payload_append_Array_reslice H b q es e ae, h, ?_, ?_⟩
    · rw [h]; simp
    · rw [h, ← List.dropLast_eq_take, List.dropLast_concat]
  · intro ms m ae
    have h : appendMembers H (ms ++ [m]) (b ++ [lbrace]) q
        = b ++ [lbrace] ++ appendMembers H ms [] q
            ++ (m.Name.append H [] q ++ [colon] ++ m.Value.append H [] q) ++ [comma] := by
      rw [appendMembers_concat, appendMembers_eq]
    refine ⟨Payload_append_Object_reslice H b q ms m ae, h, ?_, ?_⟩
    · rw [h]; simp
    · rw [h, ← List.dropLast_eq_take, List.dropLast_concat]

end Hujson
